import Mathlib

/-!
# The tape machine of `src/brainfuck/brainfuck.go`

A shallow embedding of `brainfuck.Eval`: the tape, the cursor, the jump heap and
the position of the scan loop are an explicit state, the caller's `io.ReadWriter`
is an interface over an arbitrary stream state, and the `for` loop is iterated
under a step budget.  Bytes are natural numbers with explicit `% 256`; Go's `int`
is an integer wrapped into the 64-bit signed range.  The tape is a map from index
to byte, and every index or slice expression on it is guarded by the bounds check
that Go performs, whose failure is the result `panicked`.  The program is the list
of the bytes of the string passed to `Eval`.
-/

namespace Brainfuck

/-! ## Constants and machine integers -/

/-- The constant `StackSize` of the source, `1 << 16`; it is the length of the tape. -/
def StackSize : Nat := 1 <<< 16

/-- Go's `int` on a 64-bit target: the value of an `int` operation is the
mathematical result wrapped into `[-2^63, 2^63)`. -/
def wrapInt (x : Int) : Int :=
  (x + 9223372036854775808) % 18446744073709551616 - 9223372036854775808

/-- The opcode bytes of the `switch`, as the byte values of the characters. -/
def opRight : Nat := 62
/-- The byte of `<`. -/
def opLeft : Nat := 60
/-- The byte of `+`. -/
def opInc : Nat := 43
/-- The byte of `-`. -/
def opDec : Nat := 45
/-- The byte of `,`. -/
def opIn : Nat := 44
/-- The byte of `.`. -/
def opOut : Nat := 46
/-- The byte of `[`. -/
def opOpen : Nat := 91
/-- The byte of `]`. -/
def opClose : Nat := 93

/-- The three errors `Eval` can return, one per `fmt.Errorf` of the source. -/
inductive Error where
  /-- The text "brainfuck eval: cannot pop from empty heap". -/
  | emptyHeap
  /-- The text "brainfuck eval: cannot read byte from io". -/
  | readByte
  /-- The text "brainfuck eval: cannot write byte to io". -/
  | writeByte
  deriving DecidableEq, Repr

/-! ## The jump heap -/

/-- The type `jumpHeap` of the source, a slice of positions; the last element is the top. -/
abbrev jumpHeap := List Nat

/-- The method `Push`: `*j = append(*j, v)`. -/
def Push (j : jumpHeap) (v : Nat) : jumpHeap := j ++ [v]

/-- The method `Pop`: with `l = len(*j) - 1`, an error when `l < 0`, otherwise the
element `(*j)[l]` together with the shortened heap `(*j)[:l]`. -/
def Pop (j : jumpHeap) : Except Error (Nat × jumpHeap) :=
  let l : Int := (j.length : Int) - 1
  if l < 0 then .error .emptyHeap
  else .ok (j.getD l.toNat 0, j.take l.toNat)

/-! ## The stream -/

/-- What one call `rw.Read(char)` on a one-byte buffer gives back: the count, whether
the error is non-nil, and the byte held by the buffer after the call (the buffer is
zero before it). -/
structure ReadResult where
  /-- The number of bytes the call reports. -/
  n : Nat
  /-- Whether the returned error is non-nil. -/
  err : Bool
  /-- The byte in the one-byte buffer after the call. -/
  buf : Nat
  deriving DecidableEq, Repr

/-- What one call `rw.Write(char)` gives back: the count and whether the error is non-nil. -/
structure WriteResult where
  /-- The number of bytes the call reports. -/
  n : Nat
  /-- Whether the returned error is non-nil. -/
  err : Bool
  deriving DecidableEq, Repr

/-- An `io.ReadWriter` over a stream state `σ`: each call returns its result and the
stream state after the call. -/
structure ReadWriter (σ : Type) where
  /-- A read into a one-byte buffer. -/
  Read : σ → ReadResult × σ
  /-- A write of a one-byte buffer holding the given byte. -/
  Write : σ → Nat → WriteResult × σ

/-- One call made on the stream, as recorded in the log. -/
inductive Call where
  /-- A call of `Read` and what it returned. -/
  | read (r : ReadResult)
  /-- A call of `Write` with the byte passed and what it returned. -/
  | write (b : Nat) (r : WriteResult)
  deriving DecidableEq, Repr

/-! ## The state of `Eval` -/

/-- The local variables of `Eval`, the stream, and the log of the calls made on the
stream so far (the log is only ever appended to; the code never reads it). -/
structure State (σ : Type) where
  /-- The array `tape`, as a map from index to byte; only indices below `StackSize` are used. -/
  tape : Nat → Nat
  /-- The variable `cursor`. -/
  cursor : Int
  /-- The variable `jumpTable`. -/
  jumpTable : jumpHeap
  /-- The variable `position`. -/
  position : Nat
  /-- The state of the stream `rw`. -/
  rw : σ
  /-- The calls made on `rw`, oldest first. -/
  log : List Call

/-- Where an evaluation stands: still in the loop, returned (with `nil` or an error),
or stopped by the run-time panic of an index out of range. -/
inductive Result (σ : Type) where
  /-- The loop is to go on from this state. -/
  | running (s : State σ)
  /-- The call returned: `none` is `nil`. -/
  | returned (err : Option Error) (s : State σ)
  /-- An index or slice expression on the tape was out of range. -/
  | panicked (s : State σ)

/-- The state of a result. -/
def Result.state {σ : Type} : Result σ → State σ
  | .running s => s
  | .returned _ s => s
  | .panicked s => s

/-- The state at the start of `Eval`: zeroed tape, cursor and position 0, empty jump heap. -/
def init {σ : Type} (rw : σ) : State σ :=
  { tape := fun _ => 0, cursor := 0, jumpTable := [], position := 0, rw := rw, log := [] }

/-- An index expression `tape[cursor]`, or the slice `tape[cursor:cursor+1]`, is in
range exactly when `0 <= cursor < len(tape)`. -/
def inRange (cursor : Int) : Prop := 0 ≤ cursor ∧ cursor < (StackSize : Int)

instance (cursor : Int) : Decidable (inRange cursor) := by
  unfold inRange; infer_instance

/-! ## The loop -/

/-- The `switch` on the byte `c = code[position]`. -/
def body {σ : Type} (dev : ReadWriter σ) (c : Nat) (s : State σ) : Result σ :=
  if c = opRight then
    let cursor := wrapInt (s.cursor + 1)
    .running { s with cursor := if cursor < 0 then 0 else cursor }
  else if c = opLeft then
    let cursor := wrapInt (s.cursor - 1)
    .running { s with cursor := if cursor < 0 then (StackSize : Int) else cursor }
  else if c = opInc then
    if inRange s.cursor then
      .running { s with
        tape := Function.update s.tape s.cursor.toNat ((s.tape s.cursor.toNat + 1) % 256) }
    else .panicked s
  else if c = opDec then
    if inRange s.cursor then
      .running { s with
        tape := Function.update s.tape s.cursor.toNat ((s.tape s.cursor.toNat + 255) % 256) }
    else .panicked s
  else if c = opIn then
    let r := dev.Read s.rw
    let s1 := { s with rw := r.2, log := s.log ++ [Call.read r.1] }
    if r.1.err then .returned (some .readByte) s1
    else if inRange s.cursor then
      .running { s1 with tape := Function.update s1.tape s.cursor.toNat r.1.buf }
    else .panicked s1
  else if c = opOut then
    if inRange s.cursor then
      let b := s.tape s.cursor.toNat
      let w := dev.Write s.rw b
      let s1 := { s with rw := w.2, log := s.log ++ [Call.write b w.1] }
      if w.1.err then .returned (some .writeByte) s1 else .running s1
    else .panicked s
  else if c = opOpen then
    .running { s with jumpTable := Push s.jumpTable s.position }
  else if c = opClose then
    match Pop s.jumpTable with
    | .error e => .returned (some e) s
    | .ok (last, j) =>
      let s1 := { s with jumpTable := j }
      if inRange s.cursor then
        let cond := s.tape s.cursor.toNat
        if cond = 0 then .running s1
        else .running { s1 with jumpTable := Push j last, position := last }
      else .panicked s1
  else .running s

/-- The post statement `position++` of the `for` loop, reached unless the `switch`
returned or panicked. -/
def advance {σ : Type} : Result σ → Result σ
  | .running s => .running { s with position := s.position + 1 }
  | r => r

/-- One turn of the `for` loop: the test `position < end`, the `switch`, and `position++`;
when the test fails the function returns `nil`. -/
def step {σ : Type} (dev : ReadWriter σ) (code : List Nat) (s : State σ) : Result σ :=
  if h : s.position < code.length then advance (body dev code[s.position] s)
  else .returned none s

/-- At most `fuel` turns of the loop from `s`; `running` means the budget ran out. -/
def run {σ : Type} (dev : ReadWriter σ) (code : List Nat) : Nat → State σ → Result σ
  | 0, s => .running s
  | fuel + 1, s =>
    match step dev code s with
    | .running s1 => run dev code fuel s1
    | r => r

/-- The function `Eval` on a program given as its bytes, within a step budget. -/
def Eval {σ : Type} (dev : ReadWriter σ) (code : List Nat) (rw : σ) (fuel : Nat) : Result σ :=
  run dev code fuel (init rw)

/-- The bytes of a program written as text (one byte per character, for ASCII text). -/
def bytes (text : String) : List Nat := text.toList.map Char.toNat

/-! ## A buffer stream, for concrete runs -/

/-- A stream in the manner of `bytes.Buffer`: pending input and the output written so far. -/
structure Buffer where
  /-- The bytes still to be read. -/
  input : List Nat
  /-- The bytes written, oldest first. -/
  output : List Nat
  deriving DecidableEq, Repr

/-- Reading a buffer gives its next byte, or zero bytes and the error `EOF` when it is
empty; writing appends and never fails. -/
def bufferRW : ReadWriter Buffer where
  Read := fun b =>
    match b.input with
    | [] => ({ n := 0, err := true, buf := 0 }, b)
    | x :: rest => ({ n := 1, err := false, buf := x }, { b with input := rest })
  Write := fun b x => ({ n := 1, err := false }, { b with output := b.output ++ [x] })

/-- A stream whose `Read` reports zero bytes and a nil error, leaving the buffer as it
was, and whose `Write` succeeds. -/
def shortRW : ReadWriter Unit where
  Read := fun u => ({ n := 0, err := false, buf := 0 }, u)
  Write := fun u _ => ({ n := 1, err := false }, u)

/-! ## The counted loop -/

/-- The tape that holds `a` in cell 0, `b` in cell 1 and zero in every other cell. -/
def twoCells (a b : Nat) : Nat → Nat := fun i => if i = 0 then a else if i = 1 then b else 0

/-- The program of `n` bytes `+` followed by `[->+<]`. -/
def countedLoop (n : Nat) : List Nat := List.replicate n opInc ++ bytes "[->+<]"

/-- The state at the head of the loop body of `countedLoop n`. -/
def loopHead {σ : Type} (rw : σ) (n a b : Nat) : State σ :=
  { tape := twoCells a b, cursor := 0, jumpTable := Push [] n, position := n + 1, rw := rw,
    log := [] }

/-- The state in which `countedLoop n` leaves its loop. -/
def loopExit {σ : Type} (rw : σ) (n b : Nat) : State σ :=
  { tape := twoCells 0 b, cursor := 0, jumpTable := [], position := n + 6, rw := rw, log := [] }

/-! ## Bracket matching on the text -/

/-- The open brackets left unmatched by the first `p` bytes of the program, found on
the text alone: scanning from the left, a `[` is put on the end of the list and a `]`
takes the last one off.  The last element is the `[` that a `]` at `p` matches. -/
def openAt (code : List Nat) : Nat → List Nat
  | 0 => []
  | p + 1 =>
    if code[p]? = some opOpen then openAt code p ++ [p]
    else if code[p]? = some opClose then (openAt code p).dropLast
    else openAt code p

/-- The number of `[` of a text minus its number of `]`. -/
def depth (l : List Nat) : Int := (l.count opOpen : Int) - (l.count opClose : Int)

/-- Starting from depth `d`, no prefix of the text takes the depth below zero. -/
def Above (d : Int) (l : List Nat) : Prop := ∀ k, k ≤ l.length → 0 ≤ d + depth (l.take k)

instance (d : Int) (l : List Nat) : Decidable (Above d l) := by
  unfold Above; infer_instance

/-- A text is bracket-balanced: as many `[` as `]`, and no prefix with more `]` than `[`. -/
def Balanced (l : List Nat) : Prop := depth l = 0 ∧ Above 0 l

instance (l : List Nat) : Decidable (Balanced l) := by
  unfold Balanced; infer_instance

/-- The text of the program from position `a` up to position `b`, `b` excluded. -/
def segment (code : List Nat) (a b : Nat) : List Nat := (code.take b).drop a

/-- The `]` at `q` matches the `[` at `m`: `m` is before `q` and the text strictly
between them is bracket-balanced. -/
def Matches (code : List Nat) (m q : Nat) : Prop :=
  m < q ∧ code[m]? = some opOpen ∧ code[q]? = some opClose ∧
    Balanced (segment code (m + 1) q)

instance (code : List Nat) (m q : Nat) : Decidable (Matches code m q) := by
  unfold Matches; infer_instance

/-! ## Programs without their comments -/

/-- Whether a byte is one of the eight opcodes of the `switch`. -/
def isOp (c : Nat) : Bool :=
  c == opRight || c == opLeft || c == opInc || c == opDec || c == opIn || c == opOut ||
    c == opOpen || c == opClose

/-- The program with every byte that is no opcode removed. -/
def strip (code : List Nat) : List Nat := code.filter isOp

/-- The position in `strip code` that corresponds to position `p` of `code`: the number
of opcode bytes before `p`. -/
def renumber (code : List Nat) (p : Nat) : Nat := ((code.take p).filter isOp).length

/-- The state of the stripped program that corresponds to a state of the program: the
position and the jump heap renumbered, all else the same. -/
def stripState {σ : Type} (code : List Nat) (s : State σ) : State σ :=
  { s with
    position := renumber code s.position,
    jumpTable := s.jumpTable.map (renumber code) }

/-- The result of the stripped program that corresponds to a result of the program. -/
def stripResult {σ : Type} (code : List Nat) : Result σ → Result σ
  | .running s => .running (stripState code s)
  | .returned e s => .returned e (stripState code s)
  | .panicked s => .panicked (stripState code s)

end Brainfuck

/-!
# The register machine of `src/bytesyze.go`

A shallow embedding of `byteSyze.Next` and of `bytesyze.Eval`: the four registers and
the memory cells are natural numbers that stand for bytes, with an explicit `% 256`
wherever the arithmetic of the code can wrap; the memory `[256]byte` is a map from
address to byte, the stream is the interface used for the tape machine, and the loop
`for bs.IR < 255` is iterated under a step budget.
-/

namespace Bytesyze

open Brainfuck (ReadResult WriteResult ReadWriter Call Buffer bufferRW)

/-- The byte of `<` (load). -/
def opLoad : Nat := 60
/-- The byte of `>` (store). -/
def opStore : Nat := 62
/-- The byte of `*` (point). -/
def opPoint : Nat := 42
/-- The byte of `!` (jump). -/
def opJump : Nat := 33
/-- The byte of `\` (switch). -/
def opSwitch : Nat := 92
/-- The byte of `+` (add). -/
def opAdd : Nat := 43
/-- The byte of `-` (subtract). -/
def opSub : Nat := 45
/-- The byte of `(` (input). -/
def opInput : Nat := 40
/-- The byte of `)` (output). -/
def opOutput : Nat := 41
/-- The byte of `?` (conditional). -/
def opCond : Nat := 63

/-- The struct `byteSyze` of the source, with the stream as a state and with the log
of the calls made on the stream so far (the code never reads the log). -/
structure byteSyze (σ : Type) where
  /-- The data register. -/
  DR : Nat
  /-- The address register. -/
  AR : Nat
  /-- The instruction register. -/
  IR : Nat
  /-- The switch register. -/
  SR : Nat
  /-- The array `Memory`, as a map from address to byte. -/
  Memory : Nat → Nat
  /-- The state of the stream `Stdio`. -/
  Stdio : σ
  /-- The calls made on `Stdio`, oldest first. -/
  log : List Call

/-- The `switch` of `Next` on the fetched byte `c = bs.Memory[bs.IR]`. -/
def exec {σ : Type} (dev : ReadWriter σ) (c : Nat) (bs : byteSyze σ) : byteSyze σ :=
  if c = opLoad then { bs with DR := bs.Memory bs.AR }
  else if c = opStore then { bs with Memory := Function.update bs.Memory bs.AR bs.DR }
  else if c = opPoint then { bs with DR := bs.AR, AR := bs.DR }
  else if c = opJump then { bs with AR := bs.IR, IR := bs.AR }
  else if c = opSwitch then { bs with DR := bs.SR, SR := bs.DR }
  else if c = opAdd then { bs with DR := (bs.Memory bs.AR + bs.DR) % 256 }
  else if c = opSub then
    { bs with DR := (((bs.Memory bs.AR : Int) - (bs.DR : Int)) % 256).toNat }
  else if c = opInput then
    let r := dev.Read bs.Stdio
    { bs with
      DR := if r.1.err = true ∨ r.1.n ≠ 1 then 0 else r.1.buf,
      Stdio := r.2, log := bs.log ++ [Call.read r.1] }
  else if c = opOutput then
    let w := dev.Write bs.Stdio bs.DR
    { bs with Stdio := w.2, log := bs.log ++ [Call.write bs.DR w.1] }
  else if c = opCond then
    if bs.DR = 0 then { bs with IR := (bs.IR + 1) % 256 } else bs
  else bs

/-- The method `Next`: the `switch` on `bs.Memory[bs.IR]`, then `bs.IR += 1`. -/
def Next {σ : Type} (dev : ReadWriter σ) (bs : byteSyze σ) : byteSyze σ :=
  let bs1 := exec dev (bs.Memory bs.IR) bs
  { bs1 with IR := (bs1.IR + 1) % 256 }

/-- The function `New`: zeroed registers over the given memory and stream. -/
def New {σ : Type} (memory : Nat → Nat) (stdio : σ) : byteSyze σ :=
  { DR := 0, AR := 0, IR := 0, SR := 0, Memory := memory, Stdio := stdio, log := [] }

/-- The state after `k` calls of `Next`. -/
def NextN {σ : Type} (dev : ReadWriter σ) : Nat → byteSyze σ → byteSyze σ
  | 0, bs => bs
  | k + 1, bs => NextN dev k (Next dev bs)

/-- The one error `Eval` can return. -/
inductive Error where
  /-- The text "can't cast code input to [256]byte". -/
  | cast
  deriving DecidableEq, Repr

/-- The argument `code interface{}` of `Eval`: a value of type `[256]byte`, given by
its cells, or a value of any other type. -/
inductive Code where
  /-- A value of type `[256]byte`. -/
  | array (memory : Nat → Nat)
  /-- A value of another type. -/
  | other

/-- Where an evaluation stands: still in the loop, or returned with `nil` or an error. -/
inductive Result (σ : Type) where
  /-- The loop is to go on from this state. -/
  | running (bs : byteSyze σ)
  /-- The call returned after the loop: `none` is `nil`. -/
  | returned (err : Option Error) (bs : byteSyze σ)
  /-- The call returned the cast error before a machine was made. -/
  | rejected (err : Error)

/-- At most `fuel` turns of the loop `for bs.IR < 255 { bs.Next() }`, then `return nil`;
`running` means the budget ran out. -/
def loop {σ : Type} (dev : ReadWriter σ) : Nat → byteSyze σ → Result σ
  | 0, bs => .running bs
  | fuel + 1, bs => if bs.IR < 255 then loop dev fuel (Next dev bs) else .returned none bs

/-- The function `Eval`, within a step budget. -/
def Eval {σ : Type} (dev : ReadWriter σ) (code : Code) (rw : σ) (fuel : Nat) : Result σ :=
  match code with
  | .array memory => loop dev fuel (New memory rw)
  | .other => .rejected .cast

/-- The memory image whose first cells hold the given bytes and whose other cells are zero. -/
def image (cells : List Nat) : Nat → Nat := fun i => cells.getD i 0

end Bytesyze

namespace Brainfuck

/-! ## Basic facts about the loop -/

section Facts
variable {σ : Type}

theorem step_of_getElem? (dev : ReadWriter σ) (code : List Nat) (s : State σ) (c : Nat)
    (h : code[s.position]? = some c) :
    step dev code s = advance (body dev c s) := by
  have hlt : s.position < code.length := by
    by_contra hge
    rw [List.getElem?_eq_none (not_lt.mp hge)] at h
    exact Option.noConfusion h
  have hc : code[s.position] = c := by
    rw [List.getElem?_eq_getElem hlt] at h
    exact Option.some.inj h
  simp only [step, hlt, dite_true, hc]

theorem step_past_end (dev : ReadWriter σ) (code : List Nat) (s : State σ)
    (h : code.length ≤ s.position) : step dev code s = .returned none s := by
  simp [step, Nat.not_lt.mpr h]

theorem run_succ (dev : ReadWriter σ) (code : List Nat) (fuel : Nat) (s : State σ) :
    run dev code (fuel + 1) s =
      match step dev code s with
      | .running s1 => run dev code fuel s1
      | r => r := rfl

theorem run_add (dev : ReadWriter σ) (code : List Nat) (m k : Nat) (s : State σ) :
    run dev code (m + k) s =
      match run dev code m s with
      | .running s1 => run dev code k s1
      | r => r := by
  induction m generalizing s with
  | zero => simp [run]
  | succ m ih =>
    rw [Nat.add_right_comm, run_succ, run_succ]
    cases hstep : step dev code s with
    | running s1 => simpa using ih s1
    | returned e s1 => rfl
    | panicked s1 => rfl

theorem wrapInt_of_mem (x : Int) (h1 : -9223372036854775808 ≤ x) (h2 : x < 9223372036854775808) :
    wrapInt x = x := by
  unfold wrapInt; omega

theorem Pop_nil : Pop [] = .error .emptyHeap := rfl

theorem Pop_Push (j : jumpHeap) (v : Nat) : Pop (Push j v) = .ok (v, j) := by
  unfold Pop Push
  have h : ¬ (((j ++ [v]).length : Int) - 1 < 0) := by simp
  simp only [h, if_false]
  have e : (((j ++ [v]).length : Int) - 1).toNat = j.length := by simp
  rw [e]
  simp [List.getD]

theorem step_inc (dev : ReadWriter σ) (code : List Nat) (s : State σ)
    (h : code[s.position]? = some opInc) (hr : inRange s.cursor) :
    step dev code s = .running { s with
      tape := Function.update s.tape s.cursor.toNat ((s.tape s.cursor.toNat + 1) % 256),
      position := s.position + 1 } := by
  rw [step_of_getElem? dev code s opInc h]
  simp [body, advance, opInc, opLeft, opRight, hr]

theorem step_dec (dev : ReadWriter σ) (code : List Nat) (s : State σ)
    (h : code[s.position]? = some opDec) (hr : inRange s.cursor) :
    step dev code s = .running { s with
      tape := Function.update s.tape s.cursor.toNat ((s.tape s.cursor.toNat + 255) % 256),
      position := s.position + 1 } := by
  rw [step_of_getElem? dev code s opDec h]
  simp [body, advance, opDec, opInc, opLeft, opRight, hr]

theorem step_in_err (dev : ReadWriter σ) (code : List Nat) (s : State σ)
    (h : code[s.position]? = some opIn) (he : (dev.Read s.rw).1.err = true) :
    step dev code s = .returned (some .readByte)
      { s with rw := (dev.Read s.rw).2, log := s.log ++ [Call.read (dev.Read s.rw).1] } := by
  rw [step_of_getElem? dev code s opIn h]
  simp [body, advance, opIn, opDec, opInc, opLeft, opRight, he]

theorem step_in_ok (dev : ReadWriter σ) (code : List Nat) (s : State σ)
    (h : code[s.position]? = some opIn) (he : (dev.Read s.rw).1.err = false)
    (hr : inRange s.cursor) :
    step dev code s = .running
      { s with
        tape := Function.update s.tape s.cursor.toNat (dev.Read s.rw).1.buf,
        position := s.position + 1,
        rw := (dev.Read s.rw).2, log := s.log ++ [Call.read (dev.Read s.rw).1] } := by
  rw [step_of_getElem? dev code s opIn h]
  simp [body, advance, opIn, opDec, opInc, opLeft, opRight, he, hr]

theorem step_out_ok (dev : ReadWriter σ) (code : List Nat) (s : State σ)
    (h : code[s.position]? = some opOut) (hr : inRange s.cursor)
    (he : (dev.Write s.rw (s.tape s.cursor.toNat)).1.err = false) :
    step dev code s = .running
      { s with
        position := s.position + 1,
        rw := (dev.Write s.rw (s.tape s.cursor.toNat)).2,
        log := s.log ++ [Call.write (s.tape s.cursor.toNat)
          (dev.Write s.rw (s.tape s.cursor.toNat)).1] } := by
  rw [step_of_getElem? dev code s opOut h]
  simp [body, advance, opOut, opIn, opDec, opInc, opLeft, opRight, he, hr]

theorem step_out_err (dev : ReadWriter σ) (code : List Nat) (s : State σ)
    (h : code[s.position]? = some opOut) (hr : inRange s.cursor)
    (he : (dev.Write s.rw (s.tape s.cursor.toNat)).1.err = true) :
    step dev code s = .returned (some .writeByte)
      { s with
        rw := (dev.Write s.rw (s.tape s.cursor.toNat)).2,
        log := s.log ++ [Call.write (s.tape s.cursor.toNat)
          (dev.Write s.rw (s.tape s.cursor.toNat)).1] } := by
  rw [step_of_getElem? dev code s opOut h]
  simp [body, advance, opOut, opIn, opDec, opInc, opLeft, opRight, he, hr]

theorem step_open (dev : ReadWriter σ) (code : List Nat) (s : State σ)
    (h : code[s.position]? = some opOpen) :
    step dev code s = .running
      { s with jumpTable := Push s.jumpTable s.position, position := s.position + 1 } := by
  rw [step_of_getElem? dev code s opOpen h]
  simp [body, advance, opOpen, opOut, opIn, opDec, opInc, opLeft, opRight]

theorem step_close_empty (dev : ReadWriter σ) (code : List Nat) (s : State σ)
    (h : code[s.position]? = some opClose) (hj : s.jumpTable = []) :
    step dev code s = .returned (some .emptyHeap) s := by
  rw [step_of_getElem? dev code s opClose h]
  simp [body, advance, opClose, opOpen, opOut, opIn, opDec, opInc, opLeft, opRight, hj, Pop_nil]

theorem step_close_zero (dev : ReadWriter σ) (code : List Nat) (s : State σ)
    (j : jumpHeap) (last : Nat)
    (h : code[s.position]? = some opClose) (hj : s.jumpTable = Push j last)
    (hr : inRange s.cursor) (hz : s.tape s.cursor.toNat = 0) :
    step dev code s = .running { s with jumpTable := j, position := s.position + 1 } := by
  rw [step_of_getElem? dev code s opClose h]
  simp [body, advance, opClose, opOpen, opOut, opIn, opDec, opInc, opLeft, opRight, hj, Pop_Push,
    hr, hz]

theorem step_close_nonzero (dev : ReadWriter σ) (code : List Nat) (s : State σ)
    (j : jumpHeap) (last : Nat)
    (h : code[s.position]? = some opClose) (hj : s.jumpTable = Push j last)
    (hr : inRange s.cursor) (hz : s.tape s.cursor.toNat ≠ 0) :
    step dev code s = .running { s with jumpTable := Push j last, position := last + 1 } := by
  rw [step_of_getElem? dev code s opClose h]
  simp [body, advance, opClose, opOpen, opOut, opIn, opDec, opInc, opLeft, opRight, hj, Pop_Push,
    hr, hz]

theorem step_right (dev : ReadWriter σ) (code : List Nat) (s : State σ)
    (h : code[s.position]? = some opRight)
    (h0 : 0 ≤ s.cursor) (hmax : s.cursor + 1 < 9223372036854775808) :
    step dev code s = .running { s with cursor := s.cursor + 1, position := s.position + 1 } := by
  rw [step_of_getElem? dev code s opRight h]
  have hw : wrapInt (s.cursor + 1) = s.cursor + 1 := wrapInt_of_mem _ (by omega) (by omega)
  have : ¬ (s.cursor + 1 < 0) := by omega
  simp [body, advance, opRight, hw, this]

theorem step_other (dev : ReadWriter σ) (code : List Nat) (s : State σ) (c : Nat)
    (h : code[s.position]? = some c)
    (hc : c ≠ opRight ∧ c ≠ opLeft ∧ c ≠ opInc ∧ c ≠ opDec ∧ c ≠ opIn ∧ c ≠ opOut ∧
      c ≠ opOpen ∧ c ≠ opClose) :
    step dev code s = .running { s with position := s.position + 1 } := by
  rw [step_of_getElem? dev code s c h]
  obtain ⟨h1, h2, h3, h4, h5, h6, h7, h8⟩ := hc
  simp [body, advance, h1, h2, h3, h4, h5, h6, h7, h8]

theorem step_left (dev : ReadWriter σ) (code : List Nat) (s : State σ)
    (h : code[s.position]? = some opLeft)
    (h0 : 0 ≤ s.cursor) (hmax : s.cursor < 9223372036854775808) :
    step dev code s = .running { s with
      cursor := if s.cursor = 0 then (StackSize : Int) else s.cursor - 1,
      position := s.position + 1 } := by
  rw [step_of_getElem? dev code s opLeft h]
  have hw : wrapInt (s.cursor - 1) = s.cursor - 1 := wrapInt_of_mem _ (by omega) (by omega)
  by_cases hc : s.cursor = 0
  · have hw1 : wrapInt (-1) = -1 := by decide
    simp [body, advance, opLeft, opRight, hc, hw1]
  · have : ¬ (s.cursor - 1 < 0) := by omega
    simp [body, advance, opLeft, opRight, hw, hc, this]

theorem step_no_bracket (dev : ReadWriter σ) (code : List Nat) (s : State σ) (c : Nat)
    (h : code[s.position]? = some c) (h1 : c ≠ opOpen) (h2 : c ≠ opClose) :
    match step dev code s with
    | .running s1 => s1.position = s.position + 1 ∧ s1.jumpTable = s.jumpTable
    | .returned e s1 => (e = some .readByte ∨ e = some .writeByte) ∧ s1.position = s.position
    | .panicked s1 => s1.position = s.position := by
  rw [step_of_getElem? dev code s c h]
  unfold body
  simp only [h1, h2, if_false]
  split_ifs <;> simp [advance]

theorem run_rights (dev : ReadWriter σ) (rw : σ) (n k : Nat) (hk : k ≤ n)
    (hn : n < 9223372036854775808) :
    run dev (List.replicate n opRight) k (init rw) =
      .running { init rw with cursor := (k : Int), position := k } := by
  induction k with
  | zero => rfl
  | succ k ih =>
    rw [run_add, ih (by omega)]
    simp only
    rw [run_succ, step_right dev _ _ (by simp [List.getElem?_replicate]; omega)
      (by simp) (by simp; omega)]
    simp [run]

theorem run_one (dev : ReadWriter σ) (code : List Nat) (s : State σ) :
    run dev code 1 s = step dev code s := by
  rw [run_succ]
  cases step dev code s <;> rfl

theorem run_bracket_free (dev : ReadWriter σ) (P Q : List Nat) (rw : σ)
    (hP : ∀ c ∈ P, c ≠ opOpen ∧ c ≠ opClose) (k : Nat) (hk : k ≤ P.length) :
    match run dev (P ++ opClose :: Q) k (init rw) with
    | .running s => s.position = k ∧ s.jumpTable = []
    | .returned e s => (e = some .readByte ∨ e = some .writeByte) ∧ s.position < k
    | .panicked s => s.position < k := by
  induction k with
  | zero => exact ⟨rfl, rfl⟩
  | succ k ih =>
    have ih1 := ih (by omega)
    rw [run_add]
    cases hr : run dev (P ++ opClose :: Q) k (init rw) with
    | running s =>
      rw [hr] at ih1
      obtain ⟨hp, hj⟩ := ih1
      have hlt : s.position < P.length := by omega
      have hget : (P ++ opClose :: Q)[s.position]? = some P[s.position] := by
        rw [List.getElem?_append_left hlt, List.getElem?_eq_getElem hlt]
      have hmem := hP _ (List.getElem_mem hlt)
      have hs := step_no_bracket dev _ s _ hget hmem.1 hmem.2
      simp only [run_one]
      cases hst : step dev (P ++ opClose :: Q) s with
      | running s1 =>
        rw [hst] at hs
        exact ⟨by omega, by rw [hs.2, hj]⟩
      | returned e s1 =>
        rw [hst] at hs
        exact ⟨hs.1, by omega⟩
      | panicked s1 =>
        rw [hst] at hs
        show s1.position < k + 1
        omega
    | returned e s =>
      rw [hr] at ih1
      exact ⟨ih1.1, by omega⟩
    | panicked s =>
      rw [hr] at ih1
      show s.position < k + 1
      omega


theorem twoCells_zero : (fun _ => 0 : Nat → Nat) = twoCells 0 0 := by
  funext i; simp [twoCells]

theorem twoCells_update_zero (a b x : Nat) :
    Function.update (twoCells a b) 0 x = twoCells x b := by
  funext i
  by_cases h : i = 0
  · subst h; simp [twoCells]
  · simp [twoCells, Function.update, h]

theorem twoCells_update_one (a b x : Nat) :
    Function.update (twoCells a b) 1 x = twoCells a x := by
  funext i
  by_cases h : i = 1
  · subst h; simp [twoCells]
  · simp [twoCells, Function.update, h]

theorem run_returned_add (dev : ReadWriter σ) (code : List Nat) (m k : Nat) (s s1 : State σ)
    (e : Option Error) (h : run dev code m s = .returned e s1) :
    run dev code (m + k) s = .returned e s1 := by
  rw [run_add, h]

theorem countedLoop_get_inc (n i : Nat) (h : i < n) : (countedLoop n)[i]? = some opInc := by
  unfold countedLoop
  rw [List.getElem?_append_left (by simpa using h)]
  simp [List.getElem?_replicate, h]

theorem countedLoop_get_loop (n k : Nat) : (countedLoop n)[n + k]? = (bytes "[->+<]")[k]? := by
  unfold countedLoop
  rw [List.getElem?_append_right (by simp)]
  simp

theorem countedLoop_length (n : Nat) : (countedLoop n).length = n + 6 := by
  simp [countedLoop, bytes]

theorem run_countedLoop_incs (dev : ReadWriter σ) (rw : σ) (n k : Nat) (hk : k ≤ n)
    (hn : n ≤ 255) :
    run dev (countedLoop n) k (init rw) =
      .running { init rw with tape := twoCells k 0, position := k } := by
  induction k with
  | zero => simp [run, init, twoCells_zero]
  | succ k ih =>
    rw [run_add, ih (by omega)]
    simp only
    rw [run_one, step_inc dev _ _ (countedLoop_get_inc n k (by omega))
      (show inRange 0 by decide)]
    have : (twoCells k 0 0 + 1) % 256 = k + 1 := by simp [twoCells]; omega
    simp [init, this, twoCells_update_zero]

theorem run_countedLoop_once (dev : ReadWriter σ) (rw : σ) (n a b : Nat) :
    run dev (countedLoop n) 5 (loopHead rw n a b) =
      .running (if (a + 255) % 256 = 0 then loopExit rw n ((b + 1) % 256)
        else loopHead rw n ((a + 255) % 256) ((b + 1) % 256)) := by
  have r0 : inRange 0 := by decide
  have r1 : inRange (0 + 1) := by decide
  have g1 : (countedLoop n)[n + 1]? = some opDec := countedLoop_get_loop n 1
  have g2 : (countedLoop n)[n + 1 + 1]? = some opRight := countedLoop_get_loop n 2
  have g3 : (countedLoop n)[n + 1 + 1 + 1]? = some opInc := countedLoop_get_loop n 3
  have g4 : (countedLoop n)[n + 1 + 1 + 1 + 1]? = some opLeft := countedLoop_get_loop n 4
  have g5 : (countedLoop n)[n + 1 + 1 + 1 + 1 + 1]? = some opClose := countedLoop_get_loop n 5
  unfold loopHead
  rw [run_succ, step_dec dev _ _ g1 r0]
  simp only
  rw [run_succ, step_right dev _ _ g2 (le_refl _)
    (show (0 : Int) + 1 < 9223372036854775808 by decide)]
  simp only
  rw [run_succ, step_inc dev _ _ g3 r1]
  simp only
  rw [run_succ, step_left dev _ _ g4 (show (0 : Int) ≤ 0 + 1 by decide)
    (show (0 : Int) + 1 < 9223372036854775808 by decide)]
  simp only
  have c0 : (if (0 + 1 : Int) = 0 then (StackSize : Int) else 0 + 1 - 1) = 0 := by decide
  rw [c0]
  simp only [Int.toNat_zero, show (0 + 1 : Int).toNat = 1 by decide, twoCells_update_zero,
    twoCells_update_one]
  have t0 : twoCells a b 0 = a := by simp [twoCells]
  have t1 : twoCells ((a + 255) % 256) b 1 = b := by simp [twoCells]
  rw [t0, t1]
  by_cases hz : (a + 255) % 256 = 0
  · rw [run_succ, step_close_zero dev _ _ [] n g5 rfl r0 (by simp [twoCells, hz])]
    simp [run, hz, loopExit]
  · rw [run_succ, step_close_nonzero dev _ _ [] n g5 rfl r0 (by simp [twoCells, hz])]
    simp [run, hz, loopHead]

theorem run_countedLoop_iter (dev : ReadWriter σ) (rw : σ) (n a : Nat) (h1 : 1 ≤ a)
    (h2 : a ≤ 255) (b : Nat) :
    run dev (countedLoop n) (5 * a) (loopHead rw n a b) =
      .running (loopExit rw n ((b + a) % 256)) := by
  induction a generalizing b with
  | zero => omega
  | succ a ih =>
    rw [show 5 * (a + 1) = 5 + 5 * a by ring, run_add, run_countedLoop_once]
    by_cases ha : a = 0
    · subst ha
      simp [run]
    · have hne : ¬ ((a + 1 + 255) % 256 = 0) := by omega
      simp only [hne, if_false]
      have e : (a + 1 + 255) % 256 = a := by omega
      rw [e, ih (by omega) (by omega)]
      have e2 : ((b + 1) % 256 + a) % 256 = (b + (a + 1)) % 256 := by omega
      rw [e2]

theorem run_countedLoop_head (dev : ReadWriter σ) (rw : σ) (n : Nat) (hn : n ≤ 255) :
    run dev (countedLoop n) (n + 1) (init rw) = .running (loopHead rw n n 0) := by
  rw [run_add, run_countedLoop_incs dev rw n n (le_refl _) hn]
  simp only
  rw [run_one, step_open dev _ _ (countedLoop_get_loop n 0)]
  rfl

theorem run_countedLoop_exit (dev : ReadWriter σ) (rw : σ) (n : Nat) (hn : n ≤ 255) :
    ∃ m, run dev (countedLoop n) m (init rw) = .running (loopExit rw n n) := by
  by_cases h0 : n = 0
  · subst h0
    refine ⟨(0 + 1) + (5 + 5 * 255), ?_⟩
    rw [run_add, run_countedLoop_head dev rw 0 hn]
    simp only
    rw [run_add, run_countedLoop_once]
    simp only [show ¬ ((0 + 255) % 256 = 0) by decide, if_false]
    rw [run_countedLoop_iter dev rw 0 _ (by decide) (by decide)]
  · refine ⟨(n + 1) + 5 * n, ?_⟩
    rw [run_add, run_countedLoop_head dev rw n hn]
    simp only
    rw [run_countedLoop_iter dev rw n n (by omega) hn]
    have : (0 + n) % 256 = n := by omega
    rw [this]


theorem openAt_succ_open (code : List Nat) (p : Nat) (h : code[p]? = some opOpen) :
    openAt code (p + 1) = openAt code p ++ [p] := by
  simp [openAt, h]

theorem openAt_succ_close (code : List Nat) (p : Nat) (h : code[p]? = some opClose) :
    openAt code (p + 1) = (openAt code p).dropLast := by
  simp [openAt, h, opOpen, opClose]

theorem openAt_succ_other (code : List Nat) (p : Nat) (h1 : code[p]? ≠ some opOpen)
    (h2 : code[p]? ≠ some opClose) : openAt code (p + 1) = openAt code p := by
  simp [openAt, h1, h2]

/-- The top of the scan's list is an earlier `[`, and below it lies the list of the
scan up to that `[`. -/
theorem openAt_top (code : List Nat) (p : Nat) :
    ∀ (j : List Nat) (m : Nat), openAt code p = j ++ [m] →
      m < p ∧ code[m]? = some opOpen ∧ openAt code m = j := by
  induction p using Nat.strong_induction_on with
  | _ p ih =>
    intro j m h
    cases p with
    | zero => simp [openAt] at h
    | succ p =>
      by_cases ho : code[p]? = some opOpen
      · rw [openAt_succ_open code p ho] at h
        obtain ⟨hj, hm⟩ := List.append_inj' h rfl
        have hm' : p = m := by simpa using hm
        subst hm'
        exact ⟨Nat.lt_succ_self _, ho, hj⟩
      · by_cases hc : code[p]? = some opClose
        · rw [openAt_succ_close code p hc] at h
          have hne : openAt code p ≠ [] := by
            intro hnil
            rw [hnil] at h
            simp at h
          have hsplit := List.dropLast_append_getLast hne
          rw [h] at hsplit
          obtain ⟨h1, _, h3⟩ := ih p (Nat.lt_succ_self _) (j ++ [m]) _ hsplit.symm
          obtain ⟨k1, k2, k3⟩ := ih _ (Nat.lt_succ_of_lt h1) j m h3
          exact ⟨by omega, k2, k3⟩
        · rw [openAt_succ_other code p ho hc] at h
          obtain ⟨k1, k2, k3⟩ := ih p (Nat.lt_succ_self _) j m h
          exact ⟨by omega, k2, k3⟩

/-- One turn of the loop keeps the jump heap equal to the scan's list at the position. -/
theorem step_keeps_openAt (dev : ReadWriter σ) (code : List Nat) (s s1 : State σ)
    (hinv : s.jumpTable = openAt code s.position)
    (hstep : step dev code s = .running s1) :
    s1.jumpTable = openAt code s1.position := by
  by_cases hlt : s.position < code.length
  · have hget : code[s.position]? = some code[s.position] := List.getElem?_eq_getElem hlt
    by_cases ho : code[s.position] = opOpen
    · rw [ho] at hget
      rw [step_open dev code s hget] at hstep
      injection hstep with hs
      subst hs
      simp only
      rw [openAt_succ_open code _ hget, hinv, Push]
    · by_cases hc : code[s.position] = opClose
      · rw [hc] at hget
        rcases List.eq_nil_or_concat s.jumpTable with hnil | ⟨j, m, hjm⟩
        · rw [step_close_empty dev code s hget hnil] at hstep
          exact Result.noConfusion hstep
        · rw [List.concat_eq_append] at hjm
          have htop := openAt_top code s.position j m (by rw [← hinv, hjm])
          by_cases hr : inRange s.cursor
          · by_cases hz : s.tape s.cursor.toNat = 0
            · rw [step_close_zero dev code s j m hget hjm hr hz] at hstep
              injection hstep with hs
              subst hs
              simp only
              rw [openAt_succ_close code _ hget, ← hinv, hjm]
              simp
            · rw [step_close_nonzero dev code s j m hget hjm hr hz] at hstep
              injection hstep with hs
              subst hs
              simp only
              rw [openAt_succ_open code m htop.2.1, htop.2.2, Push]
          · rw [step_of_getElem? dev code s opClose hget] at hstep
            simp [body, advance, opClose, opOpen, opOut, opIn, opDec, opInc, opLeft, opRight,
              hjm, hr] at hstep
            have hp : Pop (j ++ [m]) = .ok (m, j) := Pop_Push j m
            rw [hp] at hstep
            simp at hstep
      · have hs := step_no_bracket dev code s _ hget ho hc
        rw [hstep] at hs
        rw [hs.1, hs.2, hinv, openAt_succ_other code _ (by rw [hget]; simpa using ho)
          (by rw [hget]; simpa using hc)]
  · rw [step_past_end dev code s (not_lt.mp hlt)] at hstep
    exact Result.noConfusion hstep

/-- In every state reached from the initial one, the jump heap is the scan's list. -/
theorem run_keeps_openAt (dev : ReadWriter σ) (code : List Nat) (k : Nat) :
    ∀ (s0 s : State σ), s0.jumpTable = openAt code s0.position →
      run dev code k s0 = .running s → s.jumpTable = openAt code s.position := by
  induction k with
  | zero =>
    intro s0 s h0 hrun
    injection hrun with hs
    subst hs
    exact h0
  | succ k ih =>
    intro s0 s h0 hrun
    rw [run_succ] at hrun
    cases hst : step dev code s0 with
    | running s1 =>
      rw [hst] at hrun
      exact ih s1 s (step_keeps_openAt dev code s0 s1 h0 hst) hrun
    | returned e s1 =>
      rw [hst] at hrun
      exact Result.noConfusion hrun
    | panicked s1 =>
      rw [hst] at hrun
      exact Result.noConfusion hrun

theorem depth_nil : depth [] = 0 := rfl

theorem depth_append (a b : List Nat) : depth (a ++ b) = depth a + depth b := by
  simp only [depth, List.count_append, Nat.cast_add]
  ring

theorem depth_open : depth [opOpen] = 1 := by decide

theorem depth_close : depth [opClose] = -1 := by decide

theorem depth_other (c : Nat) (h1 : c ≠ opOpen) (h2 : c ≠ opClose) : depth [c] = 0 := by
  simp [depth, List.count_singleton, h1, h2, Ne.symm h1, Ne.symm h2]

theorem Above_nil (d : Int) (h : 0 ≤ d) : Above d [] := by
  intro k _
  simpa [depth_nil] using h

theorem Above_single (d : Int) (c : Nat) (h : 0 ≤ d) (h1 : 0 ≤ d + depth [c]) :
    Above d [c] := by
  intro k hk
  have hk1 : k ≤ 1 := by simpa using hk
  interval_cases k
  · simpa [depth_nil] using h
  · simpa using h1

theorem Above_mono (d e : Int) (l : List Nat) (h : Above d l) (hde : d ≤ e) : Above e l := by
  intro k hk
  have := h k hk
  omega

theorem Above_append (d : Int) (a b : List Nat) (ha : Above d a)
    (hb : Above (d + depth a) b) : Above d (a ++ b) := by
  intro k hk
  by_cases hka : k ≤ a.length
  · rw [List.take_append_of_le_length hka]
    exact ha k hka
  · have hlen : k - a.length ≤ b.length := by
      rw [List.length_append] at hk
      omega
    rw [List.take_append_eq_append_take, List.take_of_length_le (by omega), depth_append]
    have := hb (k - a.length) hlen
    omega

theorem Balanced_nil : Balanced [] := ⟨depth_nil, Above_nil 0 (le_refl _)⟩

theorem Balanced_append_other (a : List Nat) (c : Nat) (ha : Balanced a) (h1 : c ≠ opOpen)
    (h2 : c ≠ opClose) : Balanced (a ++ [c]) := by
  refine ⟨by rw [depth_append, ha.1, depth_other c h1 h2]; rfl, ?_⟩
  refine Above_append 0 a [c] ha.2 ?_
  rw [ha.1]
  refine Above_single _ c (by decide) ?_
  rw [depth_other c h1 h2]
  decide

theorem Balanced_nest (a b : List Nat) (ha : Balanced a) (hb : Balanced b) :
    Balanced (a ++ ([opOpen] ++ (b ++ [opClose]))) := by
  refine ⟨?_, ?_⟩
  · rw [depth_append, depth_append, depth_append, ha.1, hb.1, depth_open, depth_close]
    decide
  · refine Above_append 0 a _ ha.2 ?_
    rw [ha.1]
    refine Above_append _ [opOpen] _ (Above_single _ _ (by decide) (by decide)) ?_
    rw [depth_open]
    refine Above_append _ b _ (Above_mono 0 _ b hb.2 (by decide)) ?_
    rw [hb.1]
    exact Above_single _ _ (by decide) (by decide)

theorem segment_self (code : List Nat) (a : Nat) : segment code a a = [] := by
  unfold segment
  apply List.drop_eq_nil_of_le
  simp

theorem segment_succ (code : List Nat) (a b : Nat) (c : Nat) (hab : a ≤ b)
    (hc : code[b]? = some c) : segment code a (b + 1) = segment code a b ++ [c] := by
  have hlt : b < code.length := by
    by_contra hge
    rw [List.getElem?_eq_none (not_lt.mp hge)] at hc
    exact Option.noConfusion hc
  unfold segment
  rw [List.take_succ, hc]
  simp only [Option.toList]
  rw [List.drop_append_of_le_length (by rw [List.length_take]; omega)]

theorem segment_append (code : List Nat) (a b c : Nat) (hab : a ≤ b) (hbc : b ≤ c)
    (hb : b ≤ code.length) :
    segment code a c = segment code a b ++ segment code b c := by
  unfold segment
  have e : code.take b = (code.take c).take b := by
    rw [List.take_take, Nat.min_eq_left hbc]
  rw [e]
  have h := List.take_append_drop b (code.take c)
  conv_lhs => rw [← h]
  rw [List.drop_append_of_le_length
    (by rw [List.length_take, List.length_take]; omega)]

theorem lt_length_of_getElem? (code : List Nat) (p c : Nat) (h : code[p]? = some c) :
    p < code.length := by
  by_contra hge
  rw [List.getElem?_eq_none (not_lt.mp hge)] at h
  exact Option.noConfusion h

theorem count_single (a c : Nat) : List.count a [c] = if c = a then 1 else 0 := by
  simp [List.count_singleton]

/-- The text between the top of the scan's list and the scanned position is balanced. -/
theorem openAt_balanced (code : List Nat) (p : Nat) :
    ∀ (j : List Nat) (m : Nat), openAt code p = j ++ [m] →
      Balanced (segment code (m + 1) p) := by
  induction p using Nat.strong_induction_on with
  | _ p ih =>
    intro j m h
    cases p with
    | zero => simp [openAt] at h
    | succ p =>
      by_cases ho : code[p]? = some opOpen
      · rw [openAt_succ_open code p ho] at h
        obtain ⟨_, hm⟩ := List.append_inj' h rfl
        have hm' : p = m := by simpa using hm
        subst hm'
        rw [segment_self]
        exact Balanced_nil
      · by_cases hc : code[p]? = some opClose
        · rw [openAt_succ_close code p hc] at h
          have hne : openAt code p ≠ [] := by
            intro hnil
            rw [hnil] at h
            simp at h
          have hsplit := List.dropLast_append_getLast hne
          rw [h] at hsplit
          obtain ⟨h1, h2, h3⟩ := openAt_top code p (j ++ [m]) _ hsplit.symm
          have hb1 := ih p (Nat.lt_succ_self _) (j ++ [m]) _ hsplit.symm
          have hb2 := ih _ (Nat.lt_succ_of_lt h1) j m h3
          obtain ⟨k1, _, _⟩ := openAt_top code _ j m h3
          generalize (openAt code p).getLast hne = t at h1 h2 h3 hb1 hb2 k1
          have e1 : segment code (m + 1) (p + 1) =
              segment code (m + 1) t ++ ([opOpen] ++ (segment code (t + 1) p ++ [opClose])) := by
            rw [segment_succ code (m + 1) p opClose (by omega) hc,
              segment_append code (m + 1) (t + 1) p (by omega) (by omega)
                (lt_length_of_getElem? code t _ h2),
              segment_succ code (m + 1) t opOpen (by omega) h2]
            simp
          rw [e1]
          exact Balanced_nest _ _ hb2 hb1
        · rw [openAt_succ_other code p ho hc] at h
          obtain ⟨k1, _, _⟩ := openAt_top code p j m h
          have hb := ih p (Nat.lt_succ_self _) j m h
          cases hget : code[p]? with
          | none =>
            have hlen : code.length ≤ p := by
              by_contra hlt
              rw [List.getElem?_eq_getElem (not_le.mp hlt)] at hget
              exact Option.noConfusion hget
            have e : segment code (m + 1) (p + 1) = segment code (m + 1) p := by
              unfold segment
              rw [List.take_of_length_le hlen, List.take_of_length_le (by omega)]
            rw [e]
            exact hb
          | some c =>
            rw [segment_succ code (m + 1) p c (by omega) hget]
            refine Balanced_append_other _ c hb ?_ ?_
            · intro hco
              exact ho (by rw [hget, hco])
            · intro hcc
              exact hc (by rw [hget, hcc])

/-- When no prefix has more `]` than `[`, the length of the scan's list is the excess
of `[` over `]` in the scanned prefix. -/
theorem openAt_length (code : List Nat)
    (hbal : ∀ k, k ≤ code.length → (code.take k).count opClose ≤ (code.take k).count opOpen)
    (p : Nat) (hp : p ≤ code.length) :
    (openAt code p).length + (code.take p).count opClose = (code.take p).count opOpen := by
  induction p with
  | zero => simp [openAt]
  | succ p ih =>
    have hlt : p < code.length := hp
    have ih1 := ih (by omega)
    have hb := hbal (p + 1) hp
    have hget : code[p]? = some code[p] := List.getElem?_eq_getElem hlt
    rw [List.take_succ, hget] at hb ⊢
    simp only [Option.toList, List.count_append, count_single] at hb ⊢
    have hne : opOpen ≠ opClose := by decide
    by_cases ho : code[p] = opOpen
    · rw [openAt_succ_open code p (by rw [hget, ho])]
      simp only [ho, hne, if_true, if_false, List.length_append, List.length_singleton] at hb ⊢
      omega
    · by_cases hc : code[p] = opClose
      · rw [openAt_succ_close code p (by rw [hget, hc])]
        simp only [hc, hne.symm, if_true, if_false, List.length_dropLast] at hb ⊢
        omega
      · rw [openAt_succ_other code p (by rw [hget]; simpa using ho) (by rw [hget]; simpa using hc)]
        simp only [ho, hc, if_false] at hb ⊢
        omega

theorem Matches_unique (code : List Nat) (q m m' : Nat) (h : Matches code m q)
    (h' : Matches code m' q) : m' = m := by
  have key : ∀ a b, Matches code a q → Matches code b q → ¬ a < b := by
    intro a b ha hb hab
    obtain ⟨_, _, _, ha4⟩ := ha
    obtain ⟨hb1, hb2, _, hb4⟩ := hb
    have hblen := lt_length_of_getElem? code b _ hb2
    have e : segment code (a + 1) q =
        segment code (a + 1) b ++ ([opOpen] ++ segment code (b + 1) q) := by
      rw [segment_append code (a + 1) (b + 1) q (by omega) (by omega) hblen,
        segment_succ code (a + 1) b opOpen (by omega) hb2]
      simp
    have hd := ha4.1
    rw [e, depth_append, depth_append, depth_open, hb4.1] at hd
    have hpre := ha4.2 (segment code (a + 1) b).length (by rw [e]; simp)
    rw [e, List.take_append_of_le_length (le_refl _), List.take_length] at hpre
    omega
  rcases Nat.lt_trichotomy m m' with hlt | heq | hgt
  · exact absurd hlt (key m m' h h')
  · exact heq.symm
  · exact absurd hgt (key m' m h' h)

theorem openAt_ne_nil_of_close (code : List Nat)
    (hbal : ∀ k, k ≤ code.length → (code.take k).count opClose ≤ (code.take k).count opOpen)
    (q : Nat) (hq : code[q]? = some opClose) : openAt code q ≠ [] := by
  have hlt := lt_length_of_getElem? code q _ hq
  have h1 := openAt_length code hbal q (by omega)
  have h2 := hbal (q + 1) hlt
  rw [List.take_succ, hq] at h2
  simp only [Option.toList, List.count_append, count_single] at h2
  have hne : opClose ≠ opOpen := by decide
  simp only [hne, if_true, if_false] at h2
  intro hnil
  rw [hnil] at h1
  simp at h1
  omega

theorem step_emptyHeap (dev : ReadWriter σ) (code : List Nat) (s s1 : State σ)
    (h : step dev code s = .returned (some .emptyHeap) s1) :
    code[s.position]? = some opClose ∧ s.jumpTable = [] := by
  by_cases hlt : s.position < code.length
  · have hget : code[s.position]? = some code[s.position] := List.getElem?_eq_getElem hlt
    by_cases ho : code[s.position] = opOpen
    · rw [ho] at hget
      rw [step_open dev code s hget] at h
      exact Result.noConfusion h
    · by_cases hc : code[s.position] = opClose
      · rw [hc] at hget
        refine ⟨hget, ?_⟩
        rcases List.eq_nil_or_concat s.jumpTable with hnil | ⟨j, m, hjm⟩
        · exact hnil
        · rw [List.concat_eq_append] at hjm
          have hp : Pop (j ++ [m]) = .ok (m, j) := Pop_Push j m
          rw [step_of_getElem? dev code s opClose hget] at h
          unfold body at h
          simp only [opClose, opOpen, opOut, opIn, opDec, opInc, opLeft, opRight, hjm] at h
          simp only [Nat.reduceEqDiff, if_false, if_true] at h
          rw [hp] at h
          simp only at h
          split_ifs at h <;> simp [advance] at h
      · have hs := step_no_bracket dev code s _ hget ho hc
        rw [h] at hs
        rcases hs.1 with h1 | h1 <;> simp at h1
  · rw [step_past_end dev code s (not_lt.mp hlt)] at h
    injection h with h1 _
    exact Option.noConfusion h1

theorem run_returned_split (dev : ReadWriter σ) (code : List Nat) (k : Nat) :
    ∀ (s0 s : State σ) (e : Option Error), run dev code k s0 = .returned e s →
      ∃ (n : Nat) (s1 : State σ), run dev code n s0 = .running s1 ∧
        step dev code s1 = .returned e s := by
  induction k with
  | zero =>
    intro s0 s e h
    exact Result.noConfusion h
  | succ k ih =>
    intro s0 s e h
    rw [run_succ] at h
    cases hst : step dev code s0 with
    | running s1 =>
      rw [hst] at h
      obtain ⟨n, s2, h1, h2⟩ := ih s1 s e h
      refine ⟨n + 1, s2, ?_, h2⟩
      rw [run_succ, hst]
      exact h1
    | returned e1 s1 =>
      rw [hst] at h
      injection h with h1 h2
      subst h1 h2
      exact ⟨0, s0, rfl, hst⟩
    | panicked s1 =>
      rw [hst] at h
      exact Result.noConfusion h

theorem run_comments (dev : ReadWriter σ) (code : List Nat) (rw : σ)
    (h : ∀ c ∈ code, c ≠ opRight ∧ c ≠ opLeft ∧ c ≠ opInc ∧ c ≠ opDec ∧ c ≠ opIn ∧
      c ≠ opOut ∧ c ≠ opOpen ∧ c ≠ opClose) (k : Nat) (hk : k ≤ code.length) :
    run dev code k (init rw) = .running { init rw with position := k } := by
  induction k with
  | zero => rfl
  | succ k ih =>
    have hlt : k < code.length := hk
    rw [run_add, ih (by omega)]
    simp only
    rw [run_one, step_other dev code _ code[k] (List.getElem?_eq_getElem hlt)
      (h _ (List.getElem_mem hlt))]

theorem renumber_zero (code : List Nat) : renumber code 0 = 0 := rfl

theorem renumber_succ_op (code : List Nat) (p c : Nat) (h : code[p]? = some c)
    (hc : isOp c = true) : renumber code (p + 1) = renumber code p + 1 := by
  unfold renumber
  rw [List.take_succ, h]
  simp [List.filter_append, hc]

theorem renumber_succ_other (code : List Nat) (p c : Nat) (h : code[p]? = some c)
    (hc : isOp c = false) : renumber code (p + 1) = renumber code p := by
  unfold renumber
  rw [List.take_succ, h]
  simp [List.filter_append, hc]

theorem renumber_of_length_le (code : List Nat) (p : Nat) (h : code.length ≤ p) :
    renumber code p = (strip code).length := by
  unfold renumber strip
  rw [List.take_of_length_le h]

theorem renumber_mono (code : List Nat) (p q : Nat) (h : p ≤ q) :
    renumber code p ≤ renumber code q := by
  induction q with
  | zero =>
    have : p = 0 := by omega
    subst this
    exact le_refl _
  | succ q ih =>
    by_cases hp : p = q + 1
    · subst hp
      exact le_refl _
    · have h1 := ih (by omega)
      cases hget : code[q]? with
      | none =>
        have hlen : code.length ≤ q := by
          by_contra hlt
          rw [List.getElem?_eq_getElem (not_le.mp hlt)] at hget
          exact Option.noConfusion hget
        rw [renumber_of_length_le code (q + 1) (by omega)]
        rw [renumber_of_length_le code q hlen] at h1
        exact h1
      | some c =>
        cases hc : isOp c with
        | true => rw [renumber_succ_op code q c hget hc]; omega
        | false => rw [renumber_succ_other code q c hget hc]; exact h1

theorem renumber_lt_of_op (code : List Nat) (p c : Nat) (h : code[p]? = some c)
    (hc : isOp c = true) : renumber code p < (strip code).length := by
  have hlt := lt_length_of_getElem? code p c h
  have h1 := renumber_succ_op code p c h hc
  have h2 := renumber_mono code (p + 1) code.length hlt
  rw [renumber_of_length_le code code.length (le_refl _)] at h2
  omega

theorem strip_getElem? (code : List Nat) (p c : Nat) (h : code[p]? = some c)
    (hc : isOp c = true) : (strip code)[renumber code p]? = some c := by
  have hlt := lt_length_of_getElem? code p c h
  have hsplit : code = code.take p ++ c :: code.drop (p + 1) := by
    have h1 := List.take_append_drop p code
    have h2 : code.drop p = c :: code.drop (p + 1) := by
      rw [List.drop_eq_getElem_cons hlt]
      rw [List.getElem?_eq_getElem hlt] at h
      rw [Option.some.inj h]
    rw [← h2]
    exact h1.symm
  have e : strip code = (code.take p).filter isOp ++ c :: (code.drop (p + 1)).filter isOp := by
    unfold strip
    conv_lhs => rw [hsplit]
    rw [List.filter_append, List.filter_cons_of_pos hc]
  rw [e]
  unfold renumber
  rw [List.getElem?_append_right (le_refl _)]
  simp

theorem isOp_open : isOp opOpen = true := by decide

theorem isOp_of_ne (c : Nat) (h : isOp c = false) :
    c ≠ opRight ∧ c ≠ opLeft ∧ c ≠ opInc ∧ c ≠ opDec ∧ c ≠ opIn ∧ c ≠ opOut ∧
      c ≠ opOpen ∧ c ≠ opClose := by
  simp only [isOp, Bool.or_eq_false_iff, beq_eq_false_iff_ne, ne_eq] at h
  obtain ⟨⟨⟨⟨⟨⟨⟨h1, h2⟩, h3⟩, h4⟩, h5⟩, h6⟩, h7⟩, h8⟩ := h
  exact ⟨h1, h2, h3, h4, h5, h6, h7, h8⟩

theorem Pop_map (f : Nat → Nat) (j : jumpHeap) :
    Pop (j.map f) =
      match Pop j with
      | .error e => .error e
      | .ok (m, j1) => .ok (f m, j1.map f) := by
  rcases List.eq_nil_or_concat j with hnil | ⟨j1, m, hjm⟩
  · subst hnil
    rfl
  · rw [List.concat_eq_append] at hjm
    subst hjm
    have e1 : Pop (j1 ++ [m]) = .ok (m, j1) := Pop_Push j1 m
    have e2 : Pop (List.map f (j1 ++ [m])) = .ok (f m, j1.map f) := by
      rw [List.map_append]
      exact Pop_Push (j1.map f) (f m)
    rw [e1, e2]

theorem body_close (dev : ReadWriter σ) (s : State σ) :
    body dev opClose s =
      match Pop s.jumpTable with
      | .error e => .returned (some e) s
      | .ok (last, j) =>
        if inRange s.cursor then
          if s.tape s.cursor.toNat = 0 then .running { s with jumpTable := j }
          else .running { s with jumpTable := Push j last, position := last }
        else .panicked { s with jumpTable := j } := by
  simp [body, opClose, opOpen, opOut, opIn, opDec, opInc, opLeft, opRight]

theorem body_other (dev : ReadWriter σ) (c : Nat) (s : State σ) (h : isOp c = false) :
    body dev c s = .running s := by
  obtain ⟨h1, h2, h3, h4, h5, h6, h7, h8⟩ := isOp_of_ne c h
  simp [body, h1, h2, h3, h4, h5, h6, h7, h8]

theorem isOp_cases (c : Nat) (h : isOp c = true) :
    c = opRight ∨ c = opLeft ∨ c = opInc ∨ c = opDec ∨ c = opIn ∨ c = opOut ∨
      c = opOpen ∨ c = opClose := by
  simp only [isOp, Bool.or_eq_true, beq_iff_eq] at h
  tauto

/-- The `switch` acts on the renumbered state as it acts on the state. -/
theorem body_strip (dev : ReadWriter σ) (code : List Nat) (c : Nat) (s : State σ) :
    body dev c (stripState code s) = stripResult code (body dev c s) := by
  have hcur : (stripState code s).cursor = s.cursor := rfl
  have htape : (stripState code s).tape = s.tape := rfl
  have hrw : (stripState code s).rw = s.rw := rfl
  have hlog : (stripState code s).log = s.log := rfl
  cases hop : isOp c with
  | false =>
    rw [body_other dev c _ hop, body_other dev c _ hop]
    rfl
  | true =>
    rcases isOp_cases c hop with h | h | h | h | h | h | h | h <;> subst h
    · rfl
    · rfl
    · show (if inRange (stripState code s).cursor then _ else _) = stripResult code
        (if inRange s.cursor then _ else _)
      rw [hcur]
      by_cases hr : inRange s.cursor
      · simp only [hr, if_true]; rfl
      · simp only [hr, if_false]; rfl
    · show (if inRange (stripState code s).cursor then _ else _) = stripResult code
        (if inRange s.cursor then _ else _)
      rw [hcur]
      by_cases hr : inRange s.cursor
      · simp only [hr, if_true]; rfl
      · simp only [hr, if_false]; rfl
    · show (if (dev.Read (stripState code s).rw).1.err = true then _
        else if inRange (stripState code s).cursor then _ else _) = stripResult code
        (if (dev.Read s.rw).1.err = true then _ else if inRange s.cursor then _ else _)
      rw [hcur, hrw]
      by_cases he : (dev.Read s.rw).1.err = true
      · simp only [he, if_true]; rfl
      · simp only [he, if_false]
        by_cases hr : inRange s.cursor
        · simp only [hr, if_true]; rfl
        · simp only [hr, if_false]; rfl
    · show (if inRange (stripState code s).cursor then
          (if (dev.Write (stripState code s).rw
            ((stripState code s).tape (stripState code s).cursor.toNat)).1.err = true
            then _ else _) else _) = stripResult code
        (if inRange s.cursor then
          (if (dev.Write s.rw (s.tape s.cursor.toNat)).1.err = true then _ else _) else _)
      rw [hcur, hrw, htape]
      by_cases hr : inRange s.cursor
      · simp only [hr, if_true]
        by_cases he : (dev.Write s.rw (s.tape s.cursor.toNat)).1.err = true
        · simp only [he, if_true]; rfl
        · simp only [he, if_false]; rfl
      · simp only [hr, if_false]; rfl
    · show Result.running _ = stripResult code (Result.running _)
      simp [stripResult, stripState, Push]
    · rw [body_close, body_close]
      have hp := Pop_map (renumber code) s.jumpTable
      have hj : (stripState code s).jumpTable = s.jumpTable.map (renumber code) := rfl
      rw [hj, hp]
      cases hpop : Pop s.jumpTable with
      | error e => rfl
      | ok v =>
        obtain ⟨last, j⟩ := v
        simp only
        rw [hcur, htape]
        by_cases hr : inRange s.cursor
        · simp only [hr, if_true]
          by_cases hz : s.tape s.cursor.toNat = 0
          · simp only [hz, if_true]
            rfl
          · simp only [hz, if_false]
            simp [stripResult, stripState, Push]
        · simp only [hr, if_false]
          rfl

/-- What the `switch` can do to the position and to the jump heap. -/
theorem body_running (dev : ReadWriter σ) (c : Nat) (s s1 : State σ)
    (h : body dev c s = .running s1) :
    (s1.position = s.position ∨ s1.position ∈ s.jumpTable) ∧
    (∀ m ∈ s1.jumpTable, m ∈ s.jumpTable ∨ (c = opOpen ∧ m = s.position)) := by
  by_cases hc : c = opClose
  · subst hc
    rw [body_close] at h
    rcases List.eq_nil_or_concat s.jumpTable with hnil | ⟨j, m, hjm⟩
    · rw [hnil, Pop_nil] at h
      exact Result.noConfusion h
    · rw [List.concat_eq_append] at hjm
      have hp : Pop s.jumpTable = .ok (m, j) := by rw [hjm]; exact Pop_Push j m
      rw [hp] at h
      simp only at h
      split_ifs at h
      · injection h with h
        subst h
        refine ⟨Or.inl rfl, ?_⟩
        intro x hx
        left
        rw [hjm]
        exact List.mem_append_left _ hx
      · injection h with h
        subst h
        refine ⟨Or.inr (by rw [hjm]; simp), ?_⟩
        intro x hx
        left
        rw [hjm]
        exact hx
  · unfold body at h
    simp only [hc, if_false] at h
    split_ifs at h with h1 h2 h3 h4 h5 h6 h7 h8 h9 h10 h11 h12
    all_goals
      injection h with h
      subst h
      refine ⟨Or.inl rfl, ?_⟩
      intro x hx
      first
        | exact Or.inl hx
        | (simp only [Push, List.mem_append, List.mem_singleton] at hx
           rcases hx with hx | hx
           · exact Or.inl hx
           · exact Or.inr ⟨by assumption, hx⟩)

theorem run_stopped_add (dev : ReadWriter σ) (code : List Nat) (m k : Nat) (s : State σ)
    (h : ∀ s1, run dev code m s ≠ .running s1) :
    run dev code (m + k) s = run dev code m s := by
  rw [run_add]
  cases hr : run dev code m s with
  | running s1 => exact absurd hr (h s1)
  | returned e s1 => rfl
  | panicked s1 => rfl

theorem stripState_advance (code : List Nat) (s : State σ) (c : Nat)
    (h : code[s.position]? = some c) (hc : isOp c = true) :
    stripState code { s with position := s.position + 1 } =
      { stripState code s with position := (stripState code s).position + 1 } := by
  simp [stripState, renumber_succ_op code s.position c h hc]

/-- A turn of the loop on an opcode byte is matched by a turn of the stripped program. -/
theorem step_strip_op (dev : ReadWriter σ) (code : List Nat) (s : State σ) (c : Nat)
    (h : code[s.position]? = some c) (hc : isOp c = true)
    (hinv : ∀ m ∈ s.jumpTable, code[m]? = some opOpen) :
    step dev (strip code) (stripState code s) = stripResult code (step dev code s) := by
  have hget : (strip code)[(stripState code s).position]? = some c :=
    strip_getElem? code s.position c h hc
  rw [step_of_getElem? dev code s c h, step_of_getElem? dev (strip code) _ c hget,
    body_strip]
  cases hb : body dev c s with
  | running s1 =>
    have hpos := (body_running dev c s s1 hb).1
    have hop : ∃ c1, code[s1.position]? = some c1 ∧ isOp c1 = true := by
      rcases hpos with hp | hp
      · exact ⟨c, by rw [hp]; exact h, hc⟩
      · exact ⟨opOpen, hinv _ hp, isOp_open⟩
    obtain ⟨c1, h1, h2⟩ := hop
    show Result.running _ = Result.running _
    rw [stripState_advance code s1 c1 h1 h2]
  | returned e s1 => rfl
  | panicked s1 => rfl

/-- A turn of the loop on a byte that is no opcode leaves the renumbered state as it is. -/
theorem step_strip_other (dev : ReadWriter σ) (code : List Nat) (s : State σ) (c : Nat)
    (h : code[s.position]? = some c) (hc : isOp c = false) :
    ∃ s1, step dev code s = .running s1 ∧ stripState code s1 = stripState code s ∧
      s1.jumpTable = s.jumpTable := by
  refine ⟨{ s with position := s.position + 1 }, ?_, ?_, rfl⟩
  · rw [step_of_getElem? dev code s c h, body_other dev c s hc]
    rfl
  · simp [stripState, renumber_succ_other code s.position c h hc]

theorem step_keeps_heap_open (dev : ReadWriter σ) (code : List Nat) (s s1 : State σ)
    (hinv : ∀ m ∈ s.jumpTable, code[m]? = some opOpen)
    (hstep : step dev code s = .running s1) :
    ∀ m ∈ s1.jumpTable, code[m]? = some opOpen := by
  by_cases hlt : s.position < code.length
  · have hget : code[s.position]? = some code[s.position] := List.getElem?_eq_getElem hlt
    rw [step_of_getElem? dev code s _ hget] at hstep
    cases hb : body dev code[s.position] s with
    | running s0 =>
      rw [hb] at hstep
      injection hstep with hs
      subst hs
      intro m hm
      rcases (body_running dev _ s s0 hb).2 m hm with h1 | ⟨h1, h2⟩
      · exact hinv m h1
      · rw [h2, hget, h1]
    | returned e s0 =>
      rw [hb] at hstep
      exact Result.noConfusion hstep
    | panicked s0 =>
      rw [hb] at hstep
      exact Result.noConfusion hstep
  · rw [step_past_end dev code s (not_lt.mp hlt)] at hstep
    exact Result.noConfusion hstep

/-- The stripped program reaches, in no more turns, the renumbered result of the program. -/
theorem run_strip (dev : ReadWriter σ) (code : List Nat) (fuel : Nat) :
    ∀ s : State σ, (∀ m ∈ s.jumpTable, code[m]? = some opOpen) →
      ∃ k, k ≤ fuel ∧
        run dev (strip code) k (stripState code s) = stripResult code (run dev code fuel s) := by
  induction fuel with
  | zero => exact fun s _ => ⟨0, le_refl _, rfl⟩
  | succ fuel ih =>
    intro s hinv
    by_cases hlt : s.position < code.length
    · have hget : code[s.position]? = some code[s.position] := List.getElem?_eq_getElem hlt
      cases hc : isOp code[s.position] with
      | false =>
        obtain ⟨s1, h1, h2, h3⟩ := step_strip_other dev code s _ hget hc
        obtain ⟨k, hk, hrun⟩ := ih s1 (by rw [h3]; exact hinv)
        refine ⟨k, by omega, ?_⟩
        rw [run_succ, h1]
        simp only
        rw [← h2]
        exact hrun
      | true =>
        have hs := step_strip_op dev code s _ hget hc hinv
        cases hst : step dev code s with
        | running s1 =>
          rw [hst] at hs
          obtain ⟨k, hk, hrun⟩ := ih s1 (step_keeps_heap_open dev code s s1 hinv hst)
          refine ⟨k + 1, by omega, ?_⟩
          rw [run_succ, hs, run_succ, hst]
          exact hrun
        | returned e s1 =>
          rw [hst] at hs
          refine ⟨1, by omega, ?_⟩
          rw [run_one, hs, run_succ, hst]
        | panicked s1 =>
          rw [hst] at hs
          refine ⟨1, by omega, ?_⟩
          rw [run_one, hs, run_succ, hst]
    · have hge : code.length ≤ s.position := not_lt.mp hlt
      refine ⟨1, by omega, ?_⟩
      rw [run_one, run_succ, step_past_end dev code s hge,
        step_past_end dev (strip code) _
          (by show (strip code).length ≤ renumber code s.position
              rw [renumber_of_length_le code _ hge])]
      rfl


end Facts

/-! ## The claims -/

section Claims
variable {σ : Type}

/-- C7: a turn of the loop on `<` sets the cursor to `len(tape) = 65536` when the
cursor is 0 and to `c - 1` when the cursor is `c > 0`; the tape, the jump heap, the
stream and its log are unchanged, and the position moves on by one. -/
theorem left_moves_cursor (dev : ReadWriter σ) (code : List Nat) (s : State σ)
    (h : code[s.position]? = some opLeft)
    (h0 : 0 ≤ s.cursor) (hmax : s.cursor < 9223372036854775808) :
    (StackSize : Int) = 65536 ∧
    step dev code s = .running { s with
      cursor := if s.cursor = 0 then (StackSize : Int) else s.cursor - 1,
      position := s.position + 1 } :=
  ⟨by decide, step_left dev code s h h0 hmax⟩

/-- The turn on `<` from the initial state, over a buffer stream. -/
theorem left_moves_cursor_witness :
    (bytes "<")[(init (σ := Buffer) ⟨[], []⟩).position]? = some opLeft ∧
    (0 : Int) ≤ (init (σ := Buffer) ⟨[], []⟩).cursor ∧
    (init (σ := Buffer) ⟨[], []⟩).cursor < 9223372036854775808 ∧
    ((StackSize : Int) = 65536 ∧
      step bufferRW (bytes "<") (init ⟨[], []⟩) = .running { init ⟨[], []⟩ with
        cursor := if (init (σ := Buffer) ⟨[], []⟩).cursor = 0 then (StackSize : Int)
          else (init (σ := Buffer) ⟨[], []⟩).cursor - 1,
        position := (init (σ := Buffer) ⟨[], []⟩).position + 1 }) :=
  ⟨by decide, by decide, by decide,
    left_moves_cursor bufferRW (bytes "<") (init ⟨[], []⟩) (by decide) (by decide) (by decide)⟩

/-- C10: with the cursor in range and a byte in the cell, `+` takes the cell to its
successor modulo 256 and the following `-` brings the whole tape back to the original
one; cursor, jump heap, stream and log are unchanged throughout. -/
theorem inc_then_dec_restores (dev : ReadWriter σ) (code : List Nat) (s : State σ)
    (h1 : code[s.position]? = some opInc) (h2 : code[s.position + 1]? = some opDec)
    (hr : inRange s.cursor) (hb : s.tape s.cursor.toNat < 256) :
    run dev code 1 s = .running { s with
      tape := Function.update s.tape s.cursor.toNat ((s.tape s.cursor.toNat + 1) % 256),
      position := s.position + 1 } ∧
    run dev code 2 s = .running { s with position := s.position + 2 } := by
  have e1 := step_inc dev code s h1 hr
  constructor
  · rw [run_succ, e1]; rfl
  · rw [run_succ, e1]
    simp only
    have e2 := step_dec dev code { s with
      tape := Function.update s.tape s.cursor.toNat ((s.tape s.cursor.toNat + 1) % 256),
      position := s.position + 1 } h2 hr
    rw [run_succ, e2]
    simp only [run, Function.update_same, Function.update_idem]
    have : (((s.tape s.cursor.toNat + 1) % 256 + 255) % 256) = s.tape s.cursor.toNat := by omega
    rw [this, Function.update_eq_self]

/-- The pair `+-` on a cell holding 255: the cell passes through 0 and is 255 again. -/
theorem inc_then_dec_restores_witness :
    (bytes "+-")[({ init (⟨[], []⟩ : Buffer) with tape := fun _ => 255 } : State Buffer).position]?
      = some opInc ∧
    (bytes "+-")[({ init (⟨[], []⟩ : Buffer) with tape := fun _ => 255 } : State Buffer).position + 1]?
      = some opDec ∧
    inRange ({ init (⟨[], []⟩ : Buffer) with tape := fun _ => 255 } : State Buffer).cursor ∧
    (run bufferRW (bytes "+-") 1 { init (⟨[], []⟩ : Buffer) with tape := fun _ => 255 }).state.tape 0 = 0 ∧
    (run bufferRW (bytes "+-") 2 { init (⟨[], []⟩ : Buffer) with tape := fun _ => 255 }).state.tape 0 = 255 := by
  have h := inc_then_dec_restores bufferRW (bytes "+-")
    { init (⟨[], []⟩ : Buffer) with tape := fun _ => 255 } (by decide) (by decide) (by decide)
    (by decide)
  refine ⟨by decide, by decide, by decide, ?_, ?_⟩
  · rw [h.1]; decide
  · rw [h.2]; decide

/-- C8: when the first read returns a nil error with the byte `b` in the buffer and the
write of `b` returns a nil error, the program `,.` returns `nil` within three turns
(and with any larger budget), having made exactly one `Read` call and then one `Write`
call, of the byte `b`; cell 0 holds `b`. -/
theorem read_then_write (dev : ReadWriter σ) (rw : σ) (b : Nat)
    (he : (dev.Read rw).1.err = false)
    (hb : (dev.Read rw).1.buf = b)
    (hw : (dev.Write (dev.Read rw).2 b).1.err = false) (fuel : Nat) :
    Eval dev (bytes ",.") rw (fuel + 3) = .returned none
      { tape := Function.update (fun _ => 0) 0 b, cursor := 0, jumpTable := [], position := 2,
        rw := (dev.Write (dev.Read rw).2 b).2,
        log := [Call.read (dev.Read rw).1, Call.write b (dev.Write (dev.Read rw).2 b).1] } := by
  have r0 : inRange 0 := by decide
  have e1 := step_in_ok dev (bytes ",.") (init rw) rfl he r0
  have e2 := step_out_ok dev (bytes ",.")
    { init rw with
      tape := Function.update (fun _ => 0) 0 b, position := 1,
      rw := (dev.Read rw).2, log := [Call.read (dev.Read rw).1] } rfl r0
    (by simpa using hw)
  simp only [init, hb, Int.toNat_zero, List.nil_append, Nat.zero_add] at e1
  simp only [init, Int.toNat_zero, Function.update_same, Nat.reduceAdd, List.singleton_append]
    at e2
  unfold Eval
  rw [run_succ, init, e1]
  simp only
  rw [run_succ, e2]
  simp only
  rw [run_succ, step_past_end dev (bytes ",.") _ (show (bytes ",.").length ≤ 2 by decide)]

/-- The program `,.` on the input `[65]` leaves the output `[65]` and no input. -/
theorem read_then_write_witness :
    (bufferRW.Read ⟨[65], []⟩).1.err = false ∧
    (bufferRW.Read ⟨[65], []⟩).1.buf = 65 ∧
    (bufferRW.Write (bufferRW.Read ⟨[65], []⟩).2 65).1.err = false ∧
    (Eval bufferRW (bytes ",.") ⟨[65], []⟩ 3).state.rw = ⟨[], [65]⟩ := by
  refine ⟨by decide, by decide, by decide, ?_⟩
  rw [read_then_write bufferRW ⟨[65], []⟩ 65 (by decide) (by decide) (by decide) 0]
  decide

/-- C9, as stated, fails: on a stream whose `Read` reports zero bytes and a nil error,
the program `,+` does not stop at `,`; it returns `nil` after the `+` has run. -/
theorem short_read_goes_on :
    (shortRW.Read ()).1.n = 0 ∧
    ∃ s, Eval shortRW (bytes ",+") () 3 = .returned none s ∧ s.tape 0 = 1 ∧ s.position = 2 ∧
      s.log = [Call.read { n := 0, err := false, buf := 0 }] :=
  ⟨rfl, _, rfl, rfl, rfl, rfl⟩

/-- C9, amended: a turn on `,` whose `Read` returns a non-nil error makes the
evaluation return the read error at that instruction, with the tape, cursor, heap and
position as they were and that one call logged; a `Read` that returns a nil error is a
success whatever count it reports: the buffer byte is stored and the loop goes on. -/
theorem failed_read_stops (dev : ReadWriter σ) (code : List Nat) (s : State σ)
    (h : code[s.position]? = some opIn) (fuel : Nat) :
    ((dev.Read s.rw).1.err = true →
      run dev code (fuel + 1) s = .returned (some .readByte)
        { s with rw := (dev.Read s.rw).2, log := s.log ++ [Call.read (dev.Read s.rw).1] }) ∧
    ((dev.Read s.rw).1.err = false → inRange s.cursor →
      run dev code 1 s = .running
        { s with
          tape := Function.update s.tape s.cursor.toNat (dev.Read s.rw).1.buf,
          position := s.position + 1,
          rw := (dev.Read s.rw).2, log := s.log ++ [Call.read (dev.Read s.rw).1] }) := by
  constructor
  · intro he
    rw [run_succ, step_in_err dev code s h he]
  · intro he hr
    rw [run_succ, step_in_ok dev code s h he hr]
    rfl

/-- The program `,+` on an empty buffer stops at `,` with the read error. -/
theorem failed_read_stops_witness :
    (bytes ",+")[(init (⟨[], []⟩ : Buffer)).position]? = some opIn ∧
    (bufferRW.Read (init (⟨[], []⟩ : Buffer)).rw).1.err = true ∧
    Eval bufferRW (bytes ",+") ⟨[], []⟩ 3 = .returned (some .readByte)
      { init ⟨[], []⟩ with log := [Call.read { n := 0, err := true, buf := 0 }] } :=
  ⟨by decide, by decide,
    (failed_read_stops bufferRW (bytes ",+") (init ⟨[], []⟩) (by decide) 2).1 (by decide)⟩

/-- C5: when a turn of the loop finds `]` with the jump heap empty, the evaluation
returns the error of the empty heap with exactly the state in which that `]` was
reached, for every budget that gets that far: the tape, the cursor, the stream and its
log are untouched and no later byte of the program is run.  For a program whose first
bracket is a `]`, the evaluation either ends with this error at that `]`, or has ended
earlier by a read error, a write error or a panic; the lone `]`, whatever follows it,
gives the error from the initial state. -/
theorem close_on_empty_heap_fails (dev : ReadWriter σ) :
    (∀ (code : List Nat) (s0 s : State σ) (k fuel : Nat),
      run dev code k s0 = .running s → code[s.position]? = some opClose → s.jumpTable = [] →
      k < fuel → run dev code fuel s0 = .returned (some .emptyHeap) s) ∧
    (∀ (P Q : List Nat) (rw : σ) (fuel : Nat),
      (∀ c ∈ P, c ≠ opOpen ∧ c ≠ opClose) → P.length < fuel →
      (∃ s, Eval dev (P ++ opClose :: Q) rw fuel = .returned (some .emptyHeap) s ∧
        s.position = P.length) ∨
      (∃ s, s.position < P.length ∧
        (Eval dev (P ++ opClose :: Q) rw fuel = .returned (some .readByte) s ∨
         Eval dev (P ++ opClose :: Q) rw fuel = .returned (some .writeByte) s ∨
         Eval dev (P ++ opClose :: Q) rw fuel = .panicked s))) ∧
    (∀ (Q : List Nat) (rw : σ) (fuel : Nat),
      Eval dev (opClose :: Q) rw (fuel + 1) = .returned (some .emptyHeap) (init rw)) := by
  have main : ∀ (code : List Nat) (s0 s : State σ) (k fuel : Nat),
      run dev code k s0 = .running s → code[s.position]? = some opClose → s.jumpTable = [] →
      k < fuel → run dev code fuel s0 = .returned (some .emptyHeap) s := by
    intro code s0 s k fuel hrun hget hj hlt
    obtain ⟨m, rfl⟩ : ∃ m, fuel = k + (m + 1) := ⟨fuel - k - 1, by omega⟩
    rw [run_add, hrun]
    simp only
    rw [run_succ, step_close_empty dev code s hget hj]
  refine ⟨main, ?_, ?_⟩
  · intro P Q rw fuel hP hlt
    have h := run_bracket_free dev P Q rw hP P.length (le_refl _)
    cases hr : run dev (P ++ opClose :: Q) P.length (init rw) with
    | running s =>
      rw [hr] at h
      left
      refine ⟨s, main _ _ s _ fuel hr ?_ h.2 hlt, h.1⟩
      rw [h.1, List.getElem?_append_right (le_refl _)]
      simp
    | returned e s =>
      rw [hr] at h
      right
      obtain ⟨m, rfl⟩ : ∃ m, fuel = P.length + m := ⟨fuel - P.length, by omega⟩
      refine ⟨s, h.2, ?_⟩
      unfold Eval
      rw [run_add, hr]
      rcases h.1 with rfl | rfl
      · exact Or.inl rfl
      · exact Or.inr (Or.inl rfl)
    | panicked s =>
      rw [hr] at h
      right
      obtain ⟨m, rfl⟩ : ∃ m, fuel = P.length + m := ⟨fuel - P.length, by omega⟩
      refine ⟨s, h, ?_⟩
      unfold Eval
      rw [run_add, hr]
      exact Or.inr (Or.inr rfl)
  · intro Q rw fuel
    exact main _ (init rw) (init rw) 0 (fuel + 1) rfl (by simp [init]) rfl (Nat.succ_pos _)

/-- The program `+>]+.` stops at its `]` with the heap error; the trailing `+.` never runs. -/
theorem close_on_empty_heap_fails_witness :
    (∀ c ∈ bytes "+>", c ≠ opOpen ∧ c ≠ opClose) ∧
    Eval bufferRW (bytes "+>" ++ opClose :: bytes "+.") ⟨[], []⟩ 9 =
      .returned (some .emptyHeap)
        { init ⟨[], []⟩ with tape := Function.update (fun _ => 0) 0 1, cursor := 1, position := 2 } := by
  refine ⟨by decide, ?_⟩
  exact (close_on_empty_heap_fails bufferRW).1 _ (init ⟨[], []⟩) _ 2 9 rfl rfl rfl (by decide)

/-- C1, the code at the failing input: on a fresh tape, where the cell under the cursor
is zero, the program `[.]` runs its loop body once: for every stream, after the first
two turns the log holds one `Write` call of the byte 0, and over a buffer the
evaluation returns `nil` with the output `[0]`. -/
theorem zero_cell_loop_runs_body (dev : ReadWriter σ) (rw : σ) (fuel : Nat) :
    (Eval dev (bytes "[.]") rw (fuel + 2)).state.log = [Call.write 0 (dev.Write rw 0).1] ∧
    Eval bufferRW (bytes "[.]") ⟨[], []⟩ 4 = .returned none
      { init ⟨[], [0]⟩ with position := 3, log := [Call.write 0 { n := 1, err := false }] } := by
  refine ⟨?_, rfl⟩
  have r0 : inRange 0 := by decide
  have e1 := step_open dev (bytes "[.]") (init rw) rfl
  unfold Eval
  rw [run_succ, e1]
  simp only [init, Nat.zero_add]
  cases hw : (dev.Write rw 0).1.err with
  | true =>
    have e2 := step_out_err dev (bytes "[.]")
      { init rw with jumpTable := Push [] 0, position := 1 } rfl r0 hw
    simp only [init, Nat.zero_add] at e2
    rw [run_succ, e2]
    rfl
  | false =>
    have e2 := step_out_ok dev (bytes "[.]")
      { init rw with jumpTable := Push [] 0, position := 1 } rfl r0 hw
    simp only [init, Nat.zero_add] at e2
    rw [run_succ, e2]
    simp only
    cases fuel with
    | zero => rfl
    | succ fuel =>
      cases fuel with
      | zero => rfl
      | succ fuel => rfl

/-- C2, the code at the failing input: the program `<+` moves the cursor to 65536, which
is not an index of the tape, and the `+` that follows panics on `tape[65536]`. -/
theorem left_at_zero_then_inc_panics (dev : ReadWriter σ) (rw : σ) (fuel : Nat) :
    Eval dev (bytes "<+") rw (fuel + 2) =
      .panicked { init rw with cursor := 65536, position := 1 } ∧
    ¬ inRange 65536 :=
  ⟨rfl, by decide⟩

/-- C3, the code at the failing input: after the two turns of `<>` the cursor is 65537,
above the length of the tape, and the evaluation returns `nil` with it; the same
cursor is reached by 65537 consecutive `>` from the initial state. -/
theorem cursor_exceeds_tape_length (dev : ReadWriter σ) (rw : σ) :
    Eval dev (bytes "<>") rw 2 = .running { init rw with cursor := 65537, position := 2 } ∧
    Eval dev (bytes "<>") rw 3 = .returned none { init rw with cursor := 65537, position := 2 } ∧
    Eval dev (List.replicate 65537 opRight) rw 65537 =
      .running { init rw with cursor := 65537, position := 65537 } ∧
    (StackSize : Int) < 65537 :=
  ⟨rfl, rfl, run_rights dev rw 65537 65537 (le_refl _) (by decide), by decide⟩

/-- C4: for every `n` from 0 to 255, the program of `n` bytes `+` followed by `[->+<]`,
run from the initial state over any stream, returns `nil` for every budget from some
budget on, with cell 0 holding 0, cell 1 holding `n`, every other cell 0, the cursor at
0, the jump heap empty, the stream as it was and no call made on it. -/
theorem counted_loop_transfers (dev : ReadWriter σ) (rw : σ) (n : Nat) (hn : n ≤ 255) :
    ∃ (fuel : Nat) (s : State σ),
      (∀ k, fuel ≤ k →
        Eval dev (List.replicate n opInc ++ bytes "[->+<]") rw k = .returned none s) ∧
      s.tape 0 = 0 ∧ s.tape 1 = n ∧ (∀ i, 2 ≤ i → s.tape i = 0) ∧
      s.cursor = 0 ∧ s.jumpTable = [] ∧ s.rw = rw ∧ s.log = [] := by
  obtain ⟨m, hm⟩ := run_countedLoop_exit dev rw n hn
  refine ⟨m + 1, loopExit rw n n, ?_, ?_, ?_, ?_, rfl, rfl, rfl, rfl⟩
  · intro k hk
    obtain ⟨d, rfl⟩ : ∃ d, k = (m + 1) + d := ⟨k - (m + 1), by omega⟩
    show run dev (countedLoop n) (m + 1 + d) (init rw) = _
    apply run_returned_add
    rw [run_add, hm]
    simp only
    rw [run_one, step_past_end dev _ _ (by simp [countedLoop_length, loopExit])]
  · simp [loopExit, twoCells]
  · simp [loopExit, twoCells]
  · intro i hi
    have h0 : i ≠ 0 := by omega
    have h1 : i ≠ 1 := by omega
    simp [loopExit, twoCells, h0, h1]

/-- The program `+++[->+<]` over an empty buffer ends with 3 in cell 1. -/
theorem counted_loop_transfers_witness :
    3 ≤ 255 ∧
    ∃ (fuel : Nat) (s : State Buffer),
      (∀ k, fuel ≤ k →
        Eval bufferRW (List.replicate 3 opInc ++ bytes "[->+<]") ⟨[], []⟩ k = .returned none s) ∧
      s.tape 0 = 0 ∧ s.tape 1 = 3 ∧ (∀ i, 2 ≤ i → s.tape i = 0) ∧
      s.cursor = 0 ∧ s.jumpTable = [] ∧ s.rw = ⟨[], []⟩ ∧ s.log = [] :=
  ⟨by decide, counted_loop_transfers bufferRW ⟨[], []⟩ 3 (by decide)⟩

/-- C6: in a program no prefix of which has more `]` than `[`, whenever a turn of the
loop reached from the initial state finds `]` at its position, `Pop` succeeds and gives
the position `m` of the one `[` that matches this `]` (the text strictly between them is
bracket-balanced); with the cursor in range and a non-zero cell the turn leaves the
state as it was except that the position becomes `m + 1`, the byte just after that `[`;
and no budget makes the evaluation return the error of the empty heap. -/
theorem close_pops_matching_open (dev : ReadWriter σ) (code : List Nat) (rw : σ)
    (hbal : ∀ k, k ≤ code.length →
      (code.take k).count opClose ≤ (code.take k).count opOpen) :
    (∀ (k : Nat) (s : State σ), Eval dev code rw k = .running s →
      code[s.position]? = some opClose →
      ∃ (j : jumpHeap) (m : Nat),
        Pop s.jumpTable = .ok (m, j) ∧
        Matches code m s.position ∧ (∀ m', Matches code m' s.position → m' = m) ∧
        (inRange s.cursor → s.tape s.cursor.toNat ≠ 0 →
          step dev code s = .running { s with position := m + 1 })) ∧
    (∀ (k : Nat) (s : State σ), Eval dev code rw k ≠ .returned (some .emptyHeap) s) := by
  have hinv : ∀ (k : Nat) (s : State σ), Eval dev code rw k = .running s →
      s.jumpTable = openAt code s.position :=
    fun k s h => run_keeps_openAt dev code k (init rw) s rfl h
  constructor
  · intro k s hrun hq
    have hj := hinv k s hrun
    have hne := openAt_ne_nil_of_close code hbal s.position hq
    rcases List.eq_nil_or_concat (openAt code s.position) with hnil | ⟨j, m, hjm⟩
    · exact absurd hnil hne
    · rw [List.concat_eq_append] at hjm
      have hm : Matches code m s.position :=
        ⟨(openAt_top code _ j m hjm).1, (openAt_top code _ j m hjm).2.1, hq,
          openAt_balanced code _ j m hjm⟩
      refine ⟨j, m, ?_, hm, fun m' h' => Matches_unique code _ m m' hm h', ?_⟩
      · rw [hj, hjm]
        exact Pop_Push j m
      · intro hr hz
        rw [step_close_nonzero dev code s j m hq (by rw [hj, hjm]; rfl) hr hz]
        have : Push j m = s.jumpTable := by rw [hj, hjm]; rfl
        rw [this]
  · intro k s hret
    obtain ⟨n, s1, h1, h2⟩ := run_returned_split dev code k (init rw) s _ hret
    obtain ⟨h3, h4⟩ := step_emptyHeap dev code s1 s h2
    have hj := hinv n s1 h1
    exact openAt_ne_nil_of_close code hbal s1.position h3 (by rw [← hj, h4])

/-- The program `+[[-]]`: its inner `]`, reached after four turns, pops the position 2
of the inner `[`. -/
theorem close_pops_matching_open_witness :
    (∃ s, Eval bufferRW (bytes "+[[-]]") ⟨[], []⟩ 4 = .running s ∧
      (bytes "+[[-]]")[s.position]? = some opClose ∧ Pop s.jumpTable = .ok (2, [1])) ∧
    (∀ k, k ≤ (bytes "+[[-]]").length →
      ((bytes "+[[-]]").take k).count opClose ≤ ((bytes "+[[-]]").take k).count opOpen) ∧
    (∀ (k : Nat) (s : State Buffer), Eval bufferRW (bytes "+[[-]]") ⟨[], []⟩ k = .running s →
      (bytes "+[[-]]")[s.position]? = some opClose →
      ∃ (j : jumpHeap) (m : Nat),
        Pop s.jumpTable = .ok (m, j) ∧
        Matches (bytes "+[[-]]") m s.position ∧
        (∀ m', Matches (bytes "+[[-]]") m' s.position → m' = m) ∧
        (inRange s.cursor → s.tape s.cursor.toNat ≠ 0 →
          step bufferRW (bytes "+[[-]]") s = .running { s with position := m + 1 })) ∧
    (∀ (k : Nat) (s : State Buffer),
      Eval bufferRW (bytes "+[[-]]") ⟨[], []⟩ k ≠ .returned (some .emptyHeap) s) :=
  ⟨⟨_, rfl, rfl, rfl⟩, by decide,
    close_pops_matching_open bufferRW (bytes "+[[-]]") ⟨[], []⟩ (by decide)⟩

/-- C11: a program that holds none of the eight opcode bytes (the empty program
included) runs `len(program)` turns that only move the position, and then returns
`nil` for every larger budget, with the tape all zero, the cursor at 0, the jump heap
empty, the stream as it was and no call made on it. -/
theorem comment_only_program (dev : ReadWriter σ) (code : List Nat) (rw : σ)
    (h : ∀ c ∈ code, c ≠ opRight ∧ c ≠ opLeft ∧ c ≠ opInc ∧ c ≠ opDec ∧ c ≠ opIn ∧
      c ≠ opOut ∧ c ≠ opOpen ∧ c ≠ opClose) :
    (∀ k, k ≤ code.length →
      Eval dev code rw k = .running { init rw with position := k }) ∧
    (∀ fuel, code.length < fuel →
      Eval dev code rw fuel = .returned none
        { tape := fun _ => 0, cursor := 0, jumpTable := [], position := code.length,
          rw := rw, log := [] }) := by
  refine ⟨fun k hk => run_comments dev code rw h k hk, ?_⟩
  intro fuel hf
  obtain ⟨d, rfl⟩ : ∃ d, fuel = code.length + (1 + d) := ⟨fuel - code.length - 1, by omega⟩
  unfold Eval
  rw [run_add, run_comments dev code rw h code.length (le_refl _)]
  simp only
  apply run_returned_add
  rw [run_one, step_past_end dev code _ (le_refl _)]
  rfl

/-- On the text `hello world!`, which holds no opcode, and on the empty program. -/
theorem comment_only_program_witness :
    (∀ c ∈ bytes "hello world!", c ≠ opRight ∧ c ≠ opLeft ∧ c ≠ opInc ∧ c ≠ opDec ∧
      c ≠ opIn ∧ c ≠ opOut ∧ c ≠ opOpen ∧ c ≠ opClose) ∧
    Eval bufferRW (bytes "hello world!") ⟨[7], []⟩ 13 =
      .returned none { init ⟨[7], []⟩ with position := 12 } ∧
    Eval bufferRW [] ⟨[7], []⟩ 1 = .returned none (init ⟨[7], []⟩) :=
  ⟨by decide,
    (comment_only_program bufferRW (bytes "hello world!") ⟨[7], []⟩ (by decide)).2 13
      (by decide),
    (comment_only_program bufferRW [] ⟨[7], []⟩ (by decide)).2 1 (by decide)⟩

/-- C19: bytes that are no opcodes are comments.  When the evaluation of a program has
stopped within a budget (returned `nil`, returned an error, or panicked), the
evaluation of the program with every such byte removed gives, for that budget and every
larger one, the same outcome with the same tape, cursor, stream and log of calls; its
position and its jump heap are those of the program under the renumbering of
positions, which preserves their order. -/
theorem comments_are_ignored (dev : ReadWriter σ) (code : List Nat) (rw : σ) (fuel : Nat)
    (hterm : ∀ s, Eval dev code rw fuel ≠ .running s) :
    (∀ k, fuel ≤ k →
      Eval dev (strip code) rw k = stripResult code (Eval dev code rw fuel)) ∧
    (stripResult code (Eval dev code rw fuel)).state.tape =
      (Eval dev code rw fuel).state.tape ∧
    (stripResult code (Eval dev code rw fuel)).state.cursor =
      (Eval dev code rw fuel).state.cursor ∧
    (stripResult code (Eval dev code rw fuel)).state.rw = (Eval dev code rw fuel).state.rw ∧
    (stripResult code (Eval dev code rw fuel)).state.log =
      (Eval dev code rw fuel).state.log ∧
    (stripResult code (Eval dev code rw fuel)).state.jumpTable =
      (Eval dev code rw fuel).state.jumpTable.map (renumber code) ∧
    (∀ p q, p ≤ q → renumber code p ≤ renumber code q) := by
  have hstate : ∀ r : Result σ,
      (stripResult code r).state.tape = r.state.tape ∧
      (stripResult code r).state.cursor = r.state.cursor ∧
      (stripResult code r).state.rw = r.state.rw ∧
      (stripResult code r).state.log = r.state.log ∧
      (stripResult code r).state.jumpTable = r.state.jumpTable.map (renumber code) := by
    intro r
    cases r <;> exact ⟨rfl, rfl, rfl, rfl, rfl⟩
  refine ⟨?_, (hstate _).1, (hstate _).2.1, (hstate _).2.2.1, (hstate _).2.2.2.1,
    (hstate _).2.2.2.2, renumber_mono code⟩
  intro k hk
  obtain ⟨k0, hk0, hrun⟩ := run_strip dev code fuel (init rw)
    (fun m hm => by simp [init] at hm)
  have hinit : stripState code (init rw) = init rw := rfl
  rw [hinit] at hrun
  obtain ⟨d, rfl⟩ : ∃ d, k = k0 + d := ⟨k - k0, by omega⟩
  have hstop : ∀ s1, run dev (strip code) k0 (init rw) ≠ .running s1 := by
    intro s1 h1
    rw [hrun] at h1
    cases hr : Eval dev code rw fuel with
    | running s2 => exact hterm s2 hr
    | returned e s2 =>
      have hr' : run dev code fuel (init rw) = .returned e s2 := hr
      rw [hr'] at h1
      exact Result.noConfusion h1
    | panicked s2 =>
      have hr' : run dev code fuel (init rw) = .panicked s2 := hr
      rw [hr'] at h1
      exact Result.noConfusion h1
  show run dev (strip code) (k0 + d) (init rw) = _
  rw [run_stopped_add dev (strip code) k0 d (init rw) hstop, hrun]
  rfl

/-- The program `x[ y]z]`, whose `x`, `y`, `z` and blank are no opcodes, and its
stripped form `[]]`: both end with the error of the empty heap at their last `]`,
with the same tape, cursor, stream and log. -/
theorem comments_are_ignored_witness :
    (∀ s, Eval bufferRW (bytes "x[ y]z]") ⟨[], []⟩ 7 ≠ .running s) ∧
    strip (bytes "x[ y]z]") = bytes "[]]" ∧
    Eval bufferRW (bytes "x[ y]z]") ⟨[], []⟩ 7 =
      .returned (some .emptyHeap) { init ⟨[], []⟩ with position := 6 } ∧
    Eval bufferRW (strip (bytes "x[ y]z]")) ⟨[], []⟩ 7 =
      stripResult (bytes "x[ y]z]") (Eval bufferRW (bytes "x[ y]z]") ⟨[], []⟩ 7) ∧
    stripResult (bytes "x[ y]z]") (Eval bufferRW (bytes "x[ y]z]") ⟨[], []⟩ 7) =
      .returned (some .emptyHeap) { init ⟨[], []⟩ with position := 2 } := by
  have h0 : Eval bufferRW (bytes "x[ y]z]") ⟨[], []⟩ 7 =
      .returned (some .emptyHeap) { init ⟨[], []⟩ with position := 6 } := rfl
  have hterm : ∀ s, Eval bufferRW (bytes "x[ y]z]") ⟨[], []⟩ 7 ≠ .running s := by
    intro s h
    rw [h0] at h
    exact Result.noConfusion h
  refine ⟨hterm, by decide, h0, ?_, ?_⟩
  · exact (comments_are_ignored bufferRW (bytes "x[ y]z]") ⟨[], []⟩ 7 hterm).1 7
      (le_refl _)
  · rw [h0]
    rfl

end Claims

end Brainfuck

namespace Bytesyze

open Brainfuck (ReadResult WriteResult ReadWriter Call Buffer bufferRW)

/-! ## Basic facts about the register machine -/

section Facts
variable {σ : Type}

/-- A byte that is none of the ten opcodes. -/
theorem exec_noop (dev : ReadWriter σ) (c : Nat) (bs : byteSyze σ)
    (h : c ≠ opLoad ∧ c ≠ opStore ∧ c ≠ opPoint ∧ c ≠ opJump ∧ c ≠ opSwitch ∧ c ≠ opAdd ∧
      c ≠ opSub ∧ c ≠ opInput ∧ c ≠ opOutput ∧ c ≠ opCond) :
    exec dev c bs = bs := by
  obtain ⟨h1, h2, h3, h4, h5, h6, h7, h8, h9, h10⟩ := h
  simp [exec, h1, h2, h3, h4, h5, h6, h7, h8, h9, h10]

theorem exec_point (dev : ReadWriter σ) (bs : byteSyze σ) :
    exec dev opPoint bs = { bs with DR := bs.AR, AR := bs.DR } := by
  simp [exec, opPoint, opLoad, opStore]

theorem exec_jump (dev : ReadWriter σ) (bs : byteSyze σ) :
    exec dev opJump bs = { bs with AR := bs.IR, IR := bs.AR } := by
  simp [exec, opJump, opPoint, opLoad, opStore]

theorem exec_add (dev : ReadWriter σ) (bs : byteSyze σ) :
    exec dev opAdd bs = { bs with DR := (bs.Memory bs.AR + bs.DR) % 256 } := by
  simp [exec, opAdd, opSwitch, opJump, opPoint, opLoad, opStore]

theorem exec_sub (dev : ReadWriter σ) (bs : byteSyze σ) :
    exec dev opSub bs =
      { bs with DR := (((bs.Memory bs.AR : Int) - (bs.DR : Int)) % 256).toNat } := by
  simp [exec, opSub, opAdd, opSwitch, opJump, opPoint, opLoad, opStore]

theorem exec_input (dev : ReadWriter σ) (bs : byteSyze σ) :
    exec dev opInput bs =
      { bs with
        DR := if (dev.Read bs.Stdio).1.err = true ∨ (dev.Read bs.Stdio).1.n ≠ 1 then 0
          else (dev.Read bs.Stdio).1.buf,
        Stdio := (dev.Read bs.Stdio).2,
        log := bs.log ++ [Call.read (dev.Read bs.Stdio).1] } := by
  simp [exec, opInput, opSub, opAdd, opSwitch, opJump, opPoint, opLoad, opStore]

theorem exec_cond (dev : ReadWriter σ) (bs : byteSyze σ) :
    exec dev opCond bs = if bs.DR = 0 then { bs with IR := (bs.IR + 1) % 256 } else bs := by
  simp [exec, opCond, opOutput, opInput, opSub, opAdd, opSwitch, opJump, opPoint, opLoad,
    opStore]

theorem loop_succ (dev : ReadWriter σ) (fuel : Nat) (bs : byteSyze σ) :
    loop dev (fuel + 1) bs =
      if bs.IR < 255 then loop dev fuel (Next dev bs) else .returned none bs := rfl

theorem loop_add (dev : ReadWriter σ) (m k : Nat) (bs : byteSyze σ) :
    loop dev (m + k) bs =
      match loop dev m bs with
      | .running bs1 => loop dev k bs1
      | r => r := by
  induction m generalizing bs with
  | zero => simp [loop]
  | succ m ih =>
    rw [Nat.add_right_comm, loop_succ, loop_succ]
    by_cases h : bs.IR < 255
    · simp only [h, if_true]
      exact ih _
    · simp only [h, if_false]

theorem loop_halt (dev : ReadWriter σ) (fuel : Nat) (bs : byteSyze σ) (h : bs.IR = 255) :
    loop dev (fuel + 1) bs = .returned none bs := by
  rw [loop_succ]
  simp [h]

/-- The loop never returns an error. -/
theorem loop_no_error (dev : ReadWriter σ) (fuel : Nat) :
    ∀ bs : byteSyze σ, (∃ bs1, loop dev fuel bs = .running bs1) ∨
      (∃ bs1, loop dev fuel bs = .returned none bs1) := by
  induction fuel with
  | zero => exact fun bs => Or.inl ⟨bs, rfl⟩
  | succ fuel ih =>
    intro bs
    rw [loop_succ]
    by_cases h : bs.IR < 255
    · simp only [h, if_true]
      exact ih _
    · simp only [h, if_false]
      exact Or.inr ⟨bs, rfl⟩

/-- Over cells that hold no opcode the loop only counts `IR` up. -/
theorem loop_noops (dev : ReadWriter σ) (d : Nat) :
    ∀ bs : byteSyze σ, bs.IR + d ≤ 255 →
      (∀ i, bs.IR ≤ i → i < bs.IR + d →
        bs.Memory i ≠ opLoad ∧ bs.Memory i ≠ opStore ∧ bs.Memory i ≠ opPoint ∧
        bs.Memory i ≠ opJump ∧ bs.Memory i ≠ opSwitch ∧ bs.Memory i ≠ opAdd ∧
        bs.Memory i ≠ opSub ∧ bs.Memory i ≠ opInput ∧ bs.Memory i ≠ opOutput ∧
        bs.Memory i ≠ opCond) →
      loop dev d bs = .running { bs with IR := bs.IR + d } := by
  induction d with
  | zero => intro bs _ _; rfl
  | succ d ih =>
    intro bs hd h
    have hlt : bs.IR < 255 := by omega
    rw [loop_succ]
    simp only [hlt, if_true]
    have hn : Next dev bs = { bs with IR := bs.IR + 1 } := by
      unfold Next
      rw [exec_noop dev _ bs (h bs.IR (le_refl _) (by omega))]
      simp only
      rw [Nat.mod_eq_of_lt (by omega)]
    have ih1 := ih { bs with IR := bs.IR + 1 } (by simp only; omega)
      (fun i h1 h2 => h i (by simp only at h1; omega) (by simp only at h2; omega))
    rw [hn, ih1]
    simp only [Nat.add_assoc, Nat.add_comm 1 d]

theorem NextN_succ (dev : ReadWriter σ) (k : Nat) (bs : byteSyze σ) :
    NextN dev (k + 1) bs = NextN dev k (Next dev bs) := rfl

theorem NextN_add (dev : ReadWriter σ) (m k : Nat) (bs : byteSyze σ) :
    NextN dev (m + k) bs = NextN dev k (NextN dev m bs) := by
  induction m generalizing bs with
  | zero => simp [NextN]
  | succ m ih => rw [Nat.add_right_comm, NextN_succ, NextN_succ, ih]

theorem loop_eq_NextN (dev : ReadWriter σ) (k : Nat) :
    ∀ bs : byteSyze σ, (∀ i, i < k → (NextN dev i bs).IR < 255) →
      loop dev k bs = .running (NextN dev k bs) := by
  induction k with
  | zero => intro bs _; rfl
  | succ k ih =>
    intro bs h
    have h0 : bs.IR < 255 := h 0 (Nat.succ_pos _)
    rw [loop_succ, NextN_succ]
    simp only [h0, if_true]
    exact ih _ (fun i hi => h (i + 1) (by omega))

theorem Next_point (dev : ReadWriter σ) (bs : byteSyze σ) (h : bs.Memory bs.IR = opPoint) :
    Next dev bs = { bs with DR := bs.AR, AR := bs.DR, IR := (bs.IR + 1) % 256 } := by
  unfold Next
  rw [h, exec_point]

theorem Next_cond (dev : ReadWriter σ) (bs : byteSyze σ) (h : bs.Memory bs.IR = opCond) :
    Next dev bs =
      { bs with IR := if bs.DR = 0 then (bs.IR + 2) % 256 else (bs.IR + 1) % 256 } := by
  unfold Next
  rw [h, exec_cond]
  by_cases hd : bs.DR = 0
  · simp only [hd, if_true]
    have : ((bs.IR + 1) % 256 + 1) % 256 = (bs.IR + 2) % 256 := by omega
    rw [this]
  · simp only [hd, if_false]

theorem NextN_points (dev : ReadWriter σ) (k : Nat) :
    ∀ bs : byteSyze σ, bs.IR + k ≤ 255 →
      (∀ i, i < k → bs.Memory (bs.IR + i) = opPoint) →
      NextN dev k bs =
        { bs with
          DR := if k % 2 = 0 then bs.DR else bs.AR,
          AR := if k % 2 = 0 then bs.AR else bs.DR,
          IR := bs.IR + k } := by
  induction k with
  | zero => intro bs _ _; rfl
  | succ k ih =>
    intro bs hk h
    have h0 : bs.Memory bs.IR = opPoint := by simpa using h 0 (Nat.succ_pos _)
    have hmod : (bs.IR + 1) % 256 = bs.IR + 1 := Nat.mod_eq_of_lt (by omega)
    have ih1 := ih { bs with DR := bs.AR, AR := bs.DR, IR := bs.IR + 1 }
      (by simp only; omega)
      (fun i hi => by
        have := h (i + 1) (by omega)
        simpa [Nat.add_assoc, Nat.add_comm 1 i] using this)
    rw [NextN_succ, Next_point dev bs h0, hmod, ih1]
    rcases Nat.mod_two_eq_zero_or_one k with hk2 | hk2
    · have : (k + 1) % 2 = 1 := by omega
      simp [hk2, this, Nat.add_assoc, Nat.add_comm 1 k]
    · have : (k + 1) % 2 = 0 := by omega
      simp [hk2, this, Nat.add_assoc, Nat.add_comm 1 k]

theorem NextN_conds (dev : ReadWriter σ) (rw : σ) (n : Nat) :
    NextN dev n (New (fun _ => opCond) rw) =
      { New (fun _ => opCond) rw with IR := (2 * n) % 256 } := by
  have gen : ∀ (n : Nat) (bs : byteSyze σ), bs.Memory = (fun _ => opCond) → bs.DR = 0 →
      bs.IR < 256 → NextN dev n bs = { bs with IR := (bs.IR + 2 * n) % 256 } := by
    intro n
    induction n with
    | zero =>
      intro bs _ _ hlt
      show bs = _
      rw [Nat.mul_zero, Nat.add_zero, Nat.mod_eq_of_lt hlt]
    | succ n ih =>
      intro bs hm hd hlt
      have hf : bs.Memory bs.IR = opCond := by rw [hm]
      have h1 := ih { bs with IR := (bs.IR + 2) % 256 } hm hd (Nat.mod_lt _ (by decide))
      rw [NextN_succ, Next_cond dev bs hf, if_pos hd, h1]
      simp only
      have : ((bs.IR + 2) % 256 + 2 * n) % 256 = (bs.IR + 2 * (n + 1)) % 256 := by omega
      rw [this]
  rw [gen n (New (fun _ => opCond) rw) rfl rfl (show (0 : Nat) < 256 by decide)]
  simp [New]

end Facts

/-! ## The claims about the register machine -/

section Claims
variable {σ : Type}

/-- C12: when the fetched byte is `!`, one call of `Next` puts the old `IR` into `AR`
and sets `IR` to the old `AR` plus one, modulo 256 (the swap first, then the closing
increment); `DR`, `SR`, the memory, the stream and its log are unchanged, and the
next byte to be fetched is the one at address old `AR + 1`. -/
theorem jump_swaps_then_increments (dev : ReadWriter σ) (bs : byteSyze σ)
    (h : bs.Memory bs.IR = opJump) :
    Next dev bs = { bs with AR := bs.IR, IR := (bs.AR + 1) % 256 } ∧
    (Next dev bs).Memory (Next dev bs).IR = bs.Memory ((bs.AR + 1) % 256) := by
  have e : Next dev bs = { bs with AR := bs.IR, IR := (bs.AR + 1) % 256 } := by
    unfold Next
    rw [h, exec_jump]
  exact ⟨e, by rw [e]⟩

/-- A `!` at address 0 with `AR = 7`: the next instruction is fetched at address 8 and
`AR` holds 0. -/
theorem jump_swaps_then_increments_witness :
    ({ New (image [33]) (⟨[], []⟩ : Buffer) with AR := 7 } : byteSyze Buffer).Memory
      ({ New (image [33]) (⟨[], []⟩ : Buffer) with AR := 7 } : byteSyze Buffer).IR = opJump ∧
    (Next bufferRW { New (image [33]) (⟨[], []⟩ : Buffer) with AR := 7 } =
      { New (image [33]) (⟨[], []⟩ : Buffer) with AR := 0, IR := 8 }) :=
  ⟨by decide,
    (jump_swaps_then_increments bufferRW { New (image [33]) (⟨[], []⟩ : Buffer) with AR := 7 }
      (by decide)).1⟩

/-- C13: when the fetched byte is `?`, one call of `Next` sets `IR` to `IR + 2` modulo
256 if `DR` is zero and to `IR + 1` modulo 256 otherwise, and changes nothing else; so
with `DR = 0` the byte stored right after the `?` is stepped over and the next fetch
is two addresses on. -/
theorem cond_skips_on_zero (dev : ReadWriter σ) (bs : byteSyze σ)
    (h : bs.Memory bs.IR = opCond) :
    Next dev bs =
      { bs with IR := if bs.DR = 0 then (bs.IR + 2) % 256 else (bs.IR + 1) % 256 } ∧
    (bs.DR = 0 → (Next dev bs).Memory (Next dev bs).IR = bs.Memory ((bs.IR + 2) % 256)) ∧
    (bs.DR ≠ 0 → (Next dev bs).Memory (Next dev bs).IR = bs.Memory ((bs.IR + 1) % 256)) := by
  have e := Next_cond dev bs h
  refine ⟨e, ?_, ?_⟩
  · intro hd
    rw [e]
    simp [hd]
  · intro hd
    rw [e]
    simp [hd]

/-- The image `?))` from zeroed registers: the first `)` is stepped over; with `DR = 5`
it is not. -/
theorem cond_skips_on_zero_witness :
    (New (image [63, 41, 41]) (⟨[], []⟩ : Buffer)).Memory
      (New (image [63, 41, 41]) (⟨[], []⟩ : Buffer)).IR = opCond ∧
    (Next bufferRW (New (image [63, 41, 41]) (⟨[], []⟩ : Buffer))).IR = 2 ∧
    (Next bufferRW { New (image [63, 41, 41]) (⟨[], []⟩ : Buffer) with DR := 5 }).IR = 1 := by
  refine ⟨by decide, ?_, ?_⟩
  · rw [(cond_skips_on_zero bufferRW (New (image [63, 41, 41]) ⟨[], []⟩) (by decide)).1]
    decide
  · rw [(cond_skips_on_zero bufferRW { New (image [63, 41, 41]) ⟨[], []⟩ with DR := 5 }
      (by decide)).1]
    decide

/-- C14: on a memory image every cell of which holds a byte that is no opcode, the
evaluation makes exactly 255 turns, with `IR = k` after the `k`-th, and then returns
`nil` for every larger budget, with `IR = 255`, the memory equal to the image,
`DR = AR = SR = 0`, the stream as it was and no call made on it. -/
theorem noop_image_halts (dev : ReadWriter σ) (memory : Nat → Nat) (rw : σ)
    (h : ∀ i, i < 256 →
      memory i ≠ opLoad ∧ memory i ≠ opStore ∧ memory i ≠ opPoint ∧ memory i ≠ opJump ∧
      memory i ≠ opSwitch ∧ memory i ≠ opAdd ∧ memory i ≠ opSub ∧ memory i ≠ opInput ∧
      memory i ≠ opOutput ∧ memory i ≠ opCond) :
    (∀ k, k ≤ 255 →
      Eval dev (.array memory) rw k = .running { New memory rw with IR := k }) ∧
    (∀ fuel, 255 < fuel →
      Eval dev (.array memory) rw fuel = .returned none
        { DR := 0, AR := 0, IR := 255, SR := 0, Memory := memory, Stdio := rw, log := [] }) := by
  have hrun : ∀ k, k ≤ 255 →
      loop dev k (New memory rw) = .running { New memory rw with IR := k } := by
    intro k hk
    have := loop_noops dev k (New memory rw) (by simp only [New]; omega)
      (fun i _ h2 => h i (by simp only [New] at h2; omega))
    rw [this]
    simp [New]
  refine ⟨hrun, ?_⟩
  intro fuel hf
  obtain ⟨d, rfl⟩ : ∃ d, fuel = 255 + (d + 1) := ⟨fuel - 256, by omega⟩
  show loop dev (255 + (d + 1)) (New memory rw) = _
  rw [loop_add, hrun 255 (le_refl _)]
  simp only
  rw [loop_halt dev d _ rfl]
  rfl

/-- The image of 256 zero bytes over a buffer with pending input. -/
theorem noop_image_halts_witness :
    (∀ i, i < 256 →
      image [] i ≠ opLoad ∧ image [] i ≠ opStore ∧ image [] i ≠ opPoint ∧
      image [] i ≠ opJump ∧ image [] i ≠ opSwitch ∧ image [] i ≠ opAdd ∧
      image [] i ≠ opSub ∧ image [] i ≠ opInput ∧ image [] i ≠ opOutput ∧
      image [] i ≠ opCond) ∧
    Eval bufferRW (.array (image [])) ⟨[9], []⟩ 256 = .returned none
      { DR := 0, AR := 0, IR := 255, SR := 0, Memory := image [], Stdio := ⟨[9], []⟩,
        log := [] } := by
  have h0 : ∀ i, i < 256 →
      image [] i ≠ opLoad ∧ image [] i ≠ opStore ∧ image [] i ≠ opPoint ∧
      image [] i ≠ opJump ∧ image [] i ≠ opSwitch ∧ image [] i ≠ opAdd ∧
      image [] i ≠ opSub ∧ image [] i ≠ opInput ∧ image [] i ≠ opOutput ∧
      image [] i ≠ opCond := by
    intro i _
    have : image [] i = 0 := rfl
    rw [this]
    decide
  exact ⟨h0, (noop_image_halts bufferRW (image []) ⟨[9], []⟩ h0).2 256 (by decide)⟩

/-- C15: when the fetched byte is `(`, one call of `Next` sets `DR` to 0 if the read
returned a non-nil error or a count other than one, and to the byte read otherwise;
besides that it only logs the call, takes the stream on and increments `IR`, leaving
`AR`, `SR` and the memory as they were; and on an image the evaluation never returns
an error: it is still in the loop or has returned `nil`. -/
theorem input_failure_gives_zero (dev : ReadWriter σ) (bs : byteSyze σ)
    (h : bs.Memory bs.IR = opInput) :
    Next dev bs =
      { bs with
        DR := if (dev.Read bs.Stdio).1.err = true ∨ (dev.Read bs.Stdio).1.n ≠ 1 then 0
          else (dev.Read bs.Stdio).1.buf,
        IR := (bs.IR + 1) % 256,
        Stdio := (dev.Read bs.Stdio).2,
        log := bs.log ++ [Call.read (dev.Read bs.Stdio).1] } ∧
    (∀ (memory : Nat → Nat) (rw : σ) (fuel : Nat),
      (∃ bs1, Eval dev (.array memory) rw fuel = .running bs1) ∨
      (∃ bs1, Eval dev (.array memory) rw fuel = .returned none bs1)) := by
  refine ⟨?_, fun memory rw fuel => loop_no_error dev fuel (New memory rw)⟩
  unfold Next
  rw [h, exec_input]

/-- The image `(` on an empty buffer, with `DR = 9` before: the read fails, `DR` is 0
afterwards, and the evaluation goes on to return `nil`; on the input `[7]`, `DR` is 7. -/
theorem input_failure_gives_zero_witness :
    ({ New (image [40]) (⟨[], []⟩ : Buffer) with DR := 9 } : byteSyze Buffer).Memory
      ({ New (image [40]) (⟨[], []⟩ : Buffer) with DR := 9 } : byteSyze Buffer).IR = opInput ∧
    (Next bufferRW { New (image [40]) (⟨[], []⟩ : Buffer) with DR := 9 }).DR = 0 ∧
    (Next bufferRW (New (image [40]) (⟨[7], []⟩ : Buffer))).DR = 7 ∧
    (∃ bs, Eval bufferRW (.array (image [40])) ⟨[], []⟩ 3 = .running bs ∧ bs.IR = 3 ∧
      bs.DR = 0) := by
  refine ⟨by decide, ?_, ?_, ⟨_, rfl, rfl, rfl⟩⟩
  · rw [(input_failure_gives_zero bufferRW
      { New (image [40]) (⟨[], []⟩ : Buffer) with DR := 9 } (by decide)).1]
    decide
  · rw [(input_failure_gives_zero bufferRW (New (image [40]) (⟨[7], []⟩ : Buffer))
      (by decide)).1]
    decide

/-- C16: from a state with `IR + k <= 255` whose cells `IR, ..., IR + k - 1` all hold
`*`, `k` calls of `Next` leave `(DR, AR)` as it was when `k` is even and swapped when
`k` is odd, advance `IR` by exactly `k`, and change nothing else. -/
theorem point_parity (dev : ReadWriter σ) (k : Nat) (bs : byteSyze σ)
    (hk : bs.IR + k ≤ 255) (h : ∀ i, i < k → bs.Memory (bs.IR + i) = opPoint) :
    NextN dev k bs =
      { bs with
        DR := if k % 2 = 0 then bs.DR else bs.AR,
        AR := if k % 2 = 0 then bs.AR else bs.DR,
        IR := bs.IR + k } :=
  NextN_points dev k bs hk h

/-- Three `*` from `DR = 5`, `AR = 9`: the registers end swapped and `IR` is 3. -/
theorem point_parity_witness :
    ({ New (image [42, 42, 42]) (⟨[], []⟩ : Buffer) with DR := 5, AR := 9 } :
      byteSyze Buffer).IR + 3 ≤ 255 ∧
    (∀ i, i < 3 →
      ({ New (image [42, 42, 42]) (⟨[], []⟩ : Buffer) with DR := 5, AR := 9 } :
        byteSyze Buffer).Memory
        (({ New (image [42, 42, 42]) (⟨[], []⟩ : Buffer) with DR := 5, AR := 9 } :
          byteSyze Buffer).IR + i) = opPoint) ∧
    NextN bufferRW 3 { New (image [42, 42, 42]) (⟨[], []⟩ : Buffer) with DR := 5, AR := 9 } =
      { New (image [42, 42, 42]) (⟨[], []⟩ : Buffer) with DR := 9, AR := 5, IR := 3 } :=
  ⟨by decide, by decide,
    point_parity bufferRW 3
      { New (image [42, 42, 42]) (⟨[], []⟩ : Buffer) with DR := 5, AR := 9 }
      (by decide) (by decide)⟩

/-- C17: a call of `Next` on `+` sets `DR` to `(Memory[AR] + DR) mod 256`, and on `-`
to `(Memory[AR] - DR) mod 256`, the memory operand minus the register: for bytes this
is `Memory[AR] - DR` when the register is not larger, and `Memory[AR] + 256 - DR`
otherwise; each changes nothing else but `IR`, which is incremented modulo 256. -/
theorem add_sub_wrap (dev : ReadWriter σ) (bs : byteSyze σ) :
    (bs.Memory bs.IR = opAdd →
      Next dev bs =
        { bs with DR := (bs.Memory bs.AR + bs.DR) % 256, IR := (bs.IR + 1) % 256 }) ∧
    (bs.Memory bs.IR = opSub →
      Next dev bs =
        { bs with
          DR := (((bs.Memory bs.AR : Int) - (bs.DR : Int)) % 256).toNat,
          IR := (bs.IR + 1) % 256 } ∧
      ((Next dev bs).DR : Int) = ((bs.Memory bs.AR : Int) - (bs.DR : Int)) % 256 ∧
      (bs.Memory bs.AR < 256 → bs.DR ≤ bs.Memory bs.AR →
        (Next dev bs).DR = bs.Memory bs.AR - bs.DR) ∧
      (bs.DR < 256 → bs.Memory bs.AR < bs.DR →
        (Next dev bs).DR = bs.Memory bs.AR + 256 - bs.DR)) := by
  constructor
  · intro h
    unfold Next
    rw [h, exec_add]
  · intro h
    have e : Next dev bs =
        { bs with
          DR := (((bs.Memory bs.AR : Int) - (bs.DR : Int)) % 256).toNat,
          IR := (bs.IR + 1) % 256 } := by
      unfold Next
      rw [h, exec_sub]
    refine ⟨e, ?_, ?_, ?_⟩
    · rw [e]
      simp only
      omega
    · intro h1 h2
      rw [e]
      simp only
      omega
    · intro h1 h2
      rw [e]
      simp only
      omega

/-- The image `+` with `Memory[AR] = 43` and `DR = 250` gives 37; the image `-` with
`Memory[AR] = 45` gives 40 from `DR = 5` and 55 from `DR = 246`. -/
theorem add_sub_wrap_witness :
    (Next bufferRW { New (image [43]) (⟨[], []⟩ : Buffer) with DR := 250 }).DR = 37 ∧
    (Next bufferRW { New (image [45]) (⟨[], []⟩ : Buffer) with DR := 5 }).DR = 40 ∧
    (Next bufferRW { New (image [45]) (⟨[], []⟩ : Buffer) with DR := 246 }).DR = 55 := by
  refine ⟨?_, ?_, ?_⟩
  · rw [(add_sub_wrap bufferRW { New (image [43]) (⟨[], []⟩ : Buffer) with DR := 250 }).1
      (by decide)]
    decide
  · exact ((add_sub_wrap bufferRW { New (image [45]) (⟨[], []⟩ : Buffer) with DR := 5 }).2
      (by decide)).2.2.1 (by decide) (by decide)
  · exact ((add_sub_wrap bufferRW { New (image [45]) (⟨[], []⟩ : Buffer) with DR := 246 }).2
      (by decide)).2.2.2 (by decide) (by decide)

/-- C18: on the image whose cells 0 to 3 hold `(`, `*`, `(`, `>` and whose other cells
are zero, with the input `[4, 0x29]`: after four turns cell 4, zero in the image,
holds `)` and `IR` is 4; the fifth turn fetches that `)` and writes `0x29`; the
evaluation then returns `nil` for every budget above 255 with the output `[0x29]`,
two reads and one write made.  In every state `Next` runs the byte that the memory
holds at `IR` at that time. -/
theorem stored_byte_is_executed :
    (∃ bs, Eval bufferRW (.array (image [40, 42, 40, 62])) ⟨[4, 41], []⟩ 4 = .running bs ∧
      bs.IR = 4 ∧ image [40, 42, 40, 62] 4 = 0 ∧ bs.Memory 4 = opOutput ∧
      bs.Stdio.output = []) ∧
    (∃ bs, Eval bufferRW (.array (image [40, 42, 40, 62])) ⟨[4, 41], []⟩ 5 = .running bs ∧
      bs.IR = 5 ∧ bs.Stdio.output = [41]) ∧
    (∀ fuel, 255 < fuel →
      Eval bufferRW (.array (image [40, 42, 40, 62])) ⟨[4, 41], []⟩ fuel = .returned none
        { DR := 41, AR := 4, IR := 255, SR := 0,
          Memory := Function.update (image [40, 42, 40, 62]) 4 41,
          Stdio := ⟨[], [41]⟩,
          log := [Call.read ⟨1, false, 4⟩, Call.read ⟨1, false, 41⟩,
            Call.write 41 ⟨1, false⟩] }) ∧
    (∀ (τ : Type) (dev : ReadWriter τ) (bs : byteSyze τ),
      Next dev bs =
        { exec dev (bs.Memory bs.IR) bs with
          IR := ((exec dev (bs.Memory bs.IR) bs).IR + 1) % 256 }) := by
  refine ⟨⟨_, rfl, rfl, rfl, rfl, rfl⟩, ⟨_, rfl, rfl, rfl⟩, ?_, fun _ _ _ => rfl⟩
  intro fuel hf
  obtain ⟨d, rfl⟩ : ∃ d, fuel = 5 + (250 + (d + 1)) := ⟨fuel - 256, by omega⟩
  have h5 : loop bufferRW 5 (New (image [40, 42, 40, 62]) ⟨[4, 41], []⟩) = .running
      { DR := 41, AR := 4, IR := 5, SR := 0,
        Memory := Function.update (image [40, 42, 40, 62]) 4 41,
        Stdio := ⟨[], [41]⟩,
        log := [Call.read ⟨1, false, 4⟩, Call.read ⟨1, false, 41⟩,
          Call.write 41 ⟨1, false⟩] } := rfl
  have hrest := loop_noops bufferRW 250
    { DR := 41, AR := 4, IR := 5, SR := 0,
      Memory := Function.update (image [40, 42, 40, 62]) 4 41,
      Stdio := (⟨[], [41]⟩ : Buffer),
      log := [Call.read ⟨1, false, 4⟩, Call.read ⟨1, false, 41⟩,
        Call.write 41 ⟨1, false⟩] } (by decide)
    (by
      intro i h1 h2
      simp only at h1 h2
      have hne : i ≠ 4 := by omega
      have hz : Function.update (image [40, 42, 40, 62]) 4 41 i = 0 := by
        rw [Function.update_noteq hne]
        unfold image
        exact List.getD_eq_default _ _ (by simp; omega)
      simp only [hz]
      decide)
  show loop bufferRW (5 + (250 + (d + 1))) (New (image [40, 42, 40, 62]) ⟨[4, 41], []⟩) = _
  rw [loop_add, h5]
  simp only
  rw [loop_add, hrest]
  simp only
  rw [loop_halt bufferRW d _ rfl]

/-- C20: a `?` run at address 254 with `DR = 0` takes `IR` to 0, over the halting value
255; on the image every cell of which holds `?`, from zeroed registers, `n` calls of
`Next` lead to `IR = 2n mod 256` with `DR = 0` and all else unchanged, a value that is
never 255, and for every budget the evaluation is still in its loop: it never
returns. -/
theorem cond_image_never_halts (dev : ReadWriter σ) (rw : σ) :
    (∀ bs : byteSyze σ, bs.IR = 254 → bs.Memory 254 = opCond → bs.DR = 0 →
      (Next dev bs).IR = 0) ∧
    (∀ n, NextN dev n (New (fun _ => opCond) rw) =
      { New (fun _ => opCond) rw with IR := (2 * n) % 256 }) ∧
    (∀ n, (2 * n) % 256 ≠ 255) ∧
    (∀ fuel, Eval dev (.array (fun _ => opCond)) rw fuel =
      .running { New (fun _ => opCond) rw with IR := (2 * fuel) % 256 }) := by
  refine ⟨?_, NextN_conds dev rw, fun n => by omega, ?_⟩
  · intro bs h1 h2 h3
    rw [Next_cond dev bs (by rw [h1]; exact h2)]
    simp [h1, h3]
  · intro fuel
    show loop dev fuel (New (fun _ => opCond) rw) = _
    rw [loop_eq_NextN dev fuel _ (fun i _ => by
      rw [NextN_conds dev rw i]
      simp only
      omega)]
    rw [NextN_conds dev rw fuel]

end Claims

end Bytesyze
